import Mathlib

/-!
Verification development for the akareko peer-to-peer content-replication core.

The Rust source is shallowly embedded: byte streams are lists of naturals
(each byte a value below 256), the tokio writer/reader pair becomes a pure
encoder returning the written bytes and a pure decoder consuming a list,
machine integers are naturals carrying their bit pattern (big-endian or
little-endian byte views are made explicit where the source serializes them),
and fallible operations return Except.  The external collaborators that live
outside the repository (the sha2 SHA-512 digest and the ed25519_dalek
signature scheme, specified at the boundary in the spec) are passed in as an
explicit record of functions; theorems that need their cryptographic
properties take them as hypotheses and witnesses instantiate them with a
concrete record satisfying those hypotheses.
-/

namespace Akareko

/-- A byte stream: each element models one byte (values below 256 whenever
produced by an encoder). -/
abbrev Stream := List Nat

/-- Big-endian fixed-width byte view of a natural, `w` bytes, most significant
first; models the `to_be_bytes`/`write_uN` family. -/
def beBytes : Nat → Nat → List Nat
  | 0, _ => []
  | w + 1, n => beBytes w (n / 256) ++ [n % 256]

/-- Little-endian fixed-width byte view of a natural, `w` bytes, least
significant first; models the `to_le_bytes` family. -/
def leBytes : Nat → Nat → List Nat
  | 0, _ => []
  | w + 1, n => n % 256 :: leBytes w (n / 256)

/-- Reassemble a big-endian byte list into a natural. -/
def fromBeBytes (bs : List Nat) : Nat := bs.foldl (fun acc b => acc * 256 + b) 0

theorem beBytes_length (w n : Nat) : (beBytes w n).length = w := by
  induction w generalizing n with
  | zero => rfl
  | succ k ih => simp [beBytes, ih]

theorem leBytes_length (w n : Nat) : (leBytes w n).length = w := by
  induction w generalizing n with
  | zero => rfl
  | succ k ih => simp [leBytes, ih]

theorem fromBeBytes_append (a b : List Nat) :
    fromBeBytes (a ++ b) = b.foldl (fun acc x => acc * 256 + x) (fromBeBytes a) := by
  simp [fromBeBytes, List.foldl_append]

theorem fromBeBytes_beBytes (w n : Nat) (h : n < 256 ^ w) :
    fromBeBytes (beBytes w n) = n := by
  induction w generalizing n with
  | zero =>
    simp [Nat.pow_zero] at h
    simp [beBytes, fromBeBytes]
    omega
  | succ k ih =>
    have hdiv : n / 256 < 256 ^ k := by
      rw [Nat.div_lt_iff_lt_mul (by omega : 0 < 256)]
      calc n < 256 ^ (k + 1) := h
        _ = 256 ^ k * 256 := by rw [Nat.pow_succ]
    simp only [beBytes, fromBeBytes_append]
    rw [show fromBeBytes (beBytes k (n / 256)) = n / 256 from ih _ hdiv]
    simp [Nat.div_add_mod]
    omega

theorem beBytes_inj (w m n : Nat) (hm : m < 256 ^ w) (hn : n < 256 ^ w)
    (h : beBytes w m = beBytes w n) : m = n := by
  have := fromBeBytes_beBytes w m hm
  rw [h, fromBeBytes_beBytes w n hn] at this
  omega

/-- Reassemble a little-endian byte list into a natural. -/
def fromLeBytes : List Nat → Nat
  | [] => 0
  | b :: bs => b + 256 * fromLeBytes bs

theorem fromLeBytes_leBytes (w n : Nat) (h : n < 256 ^ w) :
    fromLeBytes (leBytes w n) = n := by
  induction w generalizing n with
  | zero =>
    simp [Nat.pow_zero] at h
    simp [leBytes, fromLeBytes]
    omega
  | succ k ih =>
    have hdiv : n / 256 < 256 ^ k := by
      rw [Nat.div_lt_iff_lt_mul (by omega : 0 < 256)]
      calc n < 256 ^ (k + 1) := h
        _ = 256 ^ k * 256 := by rw [Nat.pow_succ]
    simp only [leBytes, fromLeBytes]
    rw [ih _ hdiv]
    omega

theorem leBytes_inj (w m n : Nat) (hm : m < 256 ^ w) (hn : n < 256 ^ w)
    (h : leBytes w m = leBytes w n) : m = n := by
  have := fromLeBytes_leBytes w m hm
  rw [h, fromLeBytes_leBytes w n hn] at this
  omega

/-! ### Error taxonomy (src/errors.rs)

The pure embedding can only surface an I/O error by running out of input, so
the only `IoError` kind it ever produces is `unexpectedEof`; the `other` kind
is kept so the server loop's match on the error kind keeps its shape. -/

/-- Kind of an underlying I/O error, mirroring std::io::ErrorKind as far as
the dispatch loop inspects it. -/
inductive IoKind where
  | unexpectedEof
  | otherKind
  deriving DecidableEq, Repr

/-- Decode-side errors from src/errors.rs (DecodeError); the variant value
is the offending discriminator rendered as a string (a list of Unicode
scalar values, like every embedded Rust string). -/
inductive DecodeError where
  | ioError (kind : IoKind)
  | invalidEnumVariant (variantValue : List Nat) (enumName : String)
  | fromUtf8Error
  deriving DecidableEq, Repr

/-- Encode-side errors from src/errors.rs (EncodeError); the pure embedding
never produces `ioError`. -/
inductive EncodeError where
  | tooManyElements (allowed : Nat) (actual : Nat)
  | ioError
  deriving DecidableEq, Repr

/-- Result of a decoder: the decoded value and the unconsumed stream. -/
abbrev DecodeResult (α : Type) := Except DecodeError (α × Stream)

/-- Result of an encoder: the bytes written. -/
abbrev EncodeResult := Except EncodeError (List Nat)

/-- Model of `reader.read_u8()`: one byte or an unexpected-EOF I/O error. -/
def readU8 : Stream → DecodeResult Nat
  | [] => .error (.ioError .unexpectedEof)
  | b :: rest => .ok (b, rest)

/-- Model of `reader.read_exact` into an `n`-byte buffer. -/
def readExact (n : Nat) (s : Stream) : DecodeResult (List Nat) :=
  if n ≤ s.length then .ok (s.take n, s.drop n)
  else .error (.ioError .unexpectedEof)

/-- Model of the fixed-width big-endian reads `read_u16/u32/u64/i32/f32`. -/
def readBe (w : Nat) (s : Stream) : DecodeResult Nat :=
  match readExact w s with
  | .error e => .error e
  | .ok (bs, rest) => .ok (fromBeBytes bs, rest)

theorem readExact_append (bs r : List Nat) :
    readExact bs.length (bs ++ r) = .ok (bs, r) := by
  simp [readExact, List.take_append, List.drop_append]

theorem readBe_exact (bs r : List Nat) :
    readBe bs.length (bs ++ r) = .ok (fromBeBytes bs, r) := by
  simp only [readBe]
  rw [readExact_append]

theorem readBe_beBytes (w n : Nat) (h : n < 256 ^ w) (r : Stream) :
    readBe w (beBytes w n ++ r) = .ok (n, r) := by
  have hx := readBe_exact (beBytes w n) r
  rw [beBytes_length, fromBeBytes_beBytes w n h] at hx
  exact hx

theorem readU8_cons (b : Nat) (r : Stream) : readU8 (b :: r) = .ok (b, r) := rfl

/-! ### UTF-8 (Rust String values)

A Rust `String` is embedded as its list of Unicode scalar values; `strBytes`
is its UTF-8 byte representation (what `as_bytes` yields, and what
`String::len` counts).  `String::from_utf8` is embedded as a fuelled greedy
decoder mirroring the standard validation (continuation ranges, overlong
forms, surrogates, the 0x10FFFF ceiling). -/

/-- A Unicode scalar value: below 0x110000 and not a surrogate. -/
def ScalarValue (c : Nat) : Prop := c < 0x110000 ∧ (c < 0xD800 ∨ 0xE000 ≤ c)

instance (c : Nat) : Decidable (ScalarValue c) := by
  unfold ScalarValue; infer_instance

/-- A Rust string: a list of Unicode scalar values. -/
abbrev RStr := List Nat

/-- Well-formedness of an embedded string: every element is a scalar value. -/
def StrWF (s : RStr) : Prop := ∀ c ∈ s, ScalarValue c

instance (s : RStr) : Decidable (StrWF s) := by
  unfold StrWF; infer_instance

/-- UTF-8 encoding of one scalar value. -/
def utf8EncodeChar (c : Nat) : List Nat :=
  if c < 0x80 then [c]
  else if c < 0x800 then [0xC0 + c / 64, 0x80 + c % 64]
  else if c < 0x10000 then
    [0xE0 + c / 4096, 0x80 + c / 64 % 64, 0x80 + c % 64]
  else
    [0xF0 + c / 0x40000, 0x80 + c / 4096 % 64, 0x80 + c / 64 % 64, 0x80 + c % 64]

/-- UTF-8 byte representation of an embedded string (`str::as_bytes`). -/
def strBytes (s : RStr) : List Nat := s.flatMap utf8EncodeChar

/-- Greedy decode of one UTF-8 sequence, validating exactly what Rust's
`String::from_utf8` validates: continuation bytes in 0x80..0xBF, no overlong
forms (leads 0xC0/0xC1 and under-minimum second bytes rejected), no
surrogates (lead 0xED with second byte ≥ 0xA0 rejected), and nothing above
0x10FFFF (leads ≥ 0xF5 and 0xF4 with second byte ≥ 0x90 rejected). -/
def utf8DecodeOne : Stream → Option (Nat × Stream)
  | [] => none
  | b :: rest =>
    if b < 0x80 then some (b, rest)
    else if b < 0xC2 then none
    else if b < 0xE0 then
      match rest with
      | b1 :: r =>
        if 0x80 ≤ b1 ∧ b1 < 0xC0 then some ((b - 0xC0) * 64 + (b1 - 0x80), r)
        else none
      | _ => none
    else if b < 0xF0 then
      match rest with
      | b1 :: b2 :: r =>
        if (0x80 ≤ b1 ∧ b1 < 0xC0) ∧ (0x80 ≤ b2 ∧ b2 < 0xC0) ∧
            (b = 0xE0 → 0xA0 ≤ b1) ∧ (b = 0xED → b1 < 0xA0) then
          some ((b - 0xE0) * 4096 + (b1 - 0x80) * 64 + (b2 - 0x80), r)
        else none
      | _ => none
    else if b < 0xF5 then
      match rest with
      | b1 :: b2 :: b3 :: r =>
        if (0x80 ≤ b1 ∧ b1 < 0xC0) ∧ (0x80 ≤ b2 ∧ b2 < 0xC0) ∧
            (0x80 ≤ b3 ∧ b3 < 0xC0) ∧
            (b = 0xF0 → 0x90 ≤ b1) ∧ (b = 0xF4 → b1 < 0x90) then
          some ((b - 0xF0) * 0x40000 + (b1 - 0x80) * 4096 + (b2 - 0x80) * 64
            + (b3 - 0x80), r)
        else none
      | _ => none
    else none

/-- Fuelled loop of the UTF-8 validator over a whole byte buffer. -/
def utf8DecodeAux : Nat → Stream → Option RStr
  | _, [] => some []
  | 0, _ :: _ => none
  | fuel + 1, s =>
    match utf8DecodeOne s with
    | none => none
    | some (c, rest) => (utf8DecodeAux fuel rest).map (fun cs => c :: cs)

/-- Model of `String::from_utf8` over a byte buffer. -/
def utf8Decode (s : Stream) : Option RStr := utf8DecodeAux s.length s

theorem utf8EncodeChar_ne_nil (c : Nat) : utf8EncodeChar c ≠ [] := by
  unfold utf8EncodeChar
  split <;> [skip; split <;> [skip; split]] <;> simp

set_option maxRecDepth 4000 in
theorem utf8DecodeOne_encodeChar (c : Nat) (hc : ScalarValue c) (r : Stream) :
    utf8DecodeOne (utf8EncodeChar c ++ r) = some (c, r) := by
  obtain ⟨hlt, hsur⟩ := hc
  have q1 : c / 64 / 64 = c / 4096 := by rw [Nat.div_div_eq_div_mul]
  have q2 : c / 4096 / 64 = c / 0x40000 := by rw [Nat.div_div_eq_div_mul]
  have d1 := Nat.div_add_mod c 64
  have d2 := Nat.div_add_mod (c / 64) 64
  have d3 := Nat.div_add_mod (c / 4096) 64
  have m1 : c % 64 < 64 := Nat.mod_lt _ (by omega)
  have m2 : c / 64 % 64 < 64 := Nat.mod_lt _ (by omega)
  have m3 : c / 4096 % 64 < 64 := Nat.mod_lt _ (by omega)
  unfold utf8EncodeChar
  by_cases h1 : c < 0x80
  · simp [h1, utf8DecodeOne]
  · by_cases h2 : c < 0x800
    · have hd : 2 ≤ c / 64 := by omega
      have hd2 : c / 64 < 32 := by omega
      simp only [h1, h2, if_true, if_false, List.cons_append, utf8DecodeOne]
      rw [if_neg (by omega), if_neg (by omega), if_pos (by omega),
        if_pos (by omega)]
      congr 2
      omega
    · by_cases h3 : c < 0x10000
      · have hd : c / 4096 < 16 := by omega
        simp only [h1, h2, h3, if_true, if_false, List.cons_append, utf8DecodeOne]
        rw [if_neg (by omega), if_neg (by omega), if_neg (by omega),
          if_pos (by omega), if_pos ?hcond]
        case hcond =>
          refine ⟨⟨by omega, by omega⟩, ⟨by omega, by omega⟩,
            fun he => by omega, fun he => by omega⟩
        congr 2
        omega
      · have hd : c / 0x40000 < 5 := by omega
        simp only [h1, h2, h3, if_true, if_false, List.cons_append, utf8DecodeOne]
        rw [if_neg (by omega), if_neg (by omega), if_neg (by omega),
          if_neg (by omega), if_pos (by omega), if_pos ?hcond]
        case hcond =>
          refine ⟨⟨by omega, by omega⟩, ⟨by omega, by omega⟩, ⟨by omega, by omega⟩,
            fun he => by omega, fun he => by omega⟩
        congr 2
        omega

theorem utf8DecodeAux_strBytes (cs : RStr) (fuel : Nat) (hwf : StrWF cs)
    (hfuel : cs.length ≤ fuel) :
    utf8DecodeAux fuel (strBytes cs) = some cs := by
  induction cs generalizing fuel with
  | nil => cases fuel <;> simp [strBytes, utf8DecodeAux]
  | cons c cs ih =>
    have hc : ScalarValue c := hwf c (by simp)
    have hwf' : StrWF cs := fun x hx => hwf x (by simp [hx])
    obtain ⟨f, rfl⟩ : ∃ f, fuel = f + 1 := by
      cases fuel with
      | zero => simp at hfuel
      | succ f => exact ⟨f, rfl⟩
    have hne : strBytes (c :: cs) ≠ [] := by
      simp only [strBytes, List.flatMap_cons]
      intro hcontra
      exact utf8EncodeChar_ne_nil c (List.append_eq_nil.mp hcontra).1
    obtain ⟨b, bs, hbs⟩ : ∃ b bs, strBytes (c :: cs) = b :: bs := by
      cases hx : strBytes (c :: cs) with
      | nil => exact absurd hx hne
      | cons b bs => exact ⟨b, bs, rfl⟩
    have hsplit : strBytes (c :: cs) = utf8EncodeChar c ++ strBytes cs := by
      simp [strBytes]
    rw [hbs]
    show (match utf8DecodeOne (b :: bs) with
      | none => none
      | some (x, rest) => (utf8DecodeAux f rest).map (fun cs => x :: cs)) = some (c :: cs)
    rw [← hbs, hsplit, utf8DecodeOne_encodeChar c hc]
    simp [ih f hwf' (by simp at hfuel; omega)]

theorem strBytes_length_ge (cs : RStr) : cs.length ≤ (strBytes cs).length := by
  induction cs with
  | nil => simp [strBytes]
  | cons c cs ih =>
    have := utf8EncodeChar_ne_nil c
    have hpos : 0 < (utf8EncodeChar c).length := List.length_pos.mpr this
    simp only [strBytes, List.flatMap_cons, List.length_append, List.length_cons]
    simp only [strBytes] at ih
    omega

theorem utf8Decode_strBytes (cs : RStr) (hwf : StrWF cs) :
    utf8Decode (strBytes cs) = some cs :=
  utf8DecodeAux_strBytes cs _ hwf (strBytes_length_ge cs)

/-! ### Byteable primitives (src/helpers/byteable.rs)

Each Rust `Byteable` impl becomes an encoder returning the written bytes and
a decoder over the remaining stream.  Machine integers travel as their bit
pattern: `i32` and `f32` values are embedded as the natural number whose
big-endian 4-byte view the source writes, so decoding is bit-exact. -/

/-- Sequence two encodes: the source writes fields in order and the first
error short-circuits. -/
def eseq (a b : EncodeResult) : EncodeResult :=
  match a with
  | .error e => .error e
  | .ok x =>
    match b with
    | .error e => .error e
    | .ok y => .ok (x ++ y)

/-- Sequence two decodes, threading the stream. -/
def dseq {α β : Type} (da : Stream → DecodeResult α)
    (db : α → Stream → DecodeResult β) (s : Stream) : DecodeResult β :=
  match da s with
  | .error e => .error e
  | .ok (a, s1) => db a s1

/-- Round-trip property of an encoder/decoder pair at one value: whenever the
encode succeeds, decoding the produced bytes before any suffix returns the
value and leaves the suffix. -/
def RT {α : Type} (enc : α → EncodeResult) (dec : Stream → DecodeResult α)
    (x : α) : Prop :=
  ∀ bs r, enc x = .ok bs → dec (bs ++ r) = .ok (x, r)

theorem eseq_ok {a b : EncodeResult} {c : List Nat} (h : eseq a b = .ok c) :
    ∃ x y, a = .ok x ∧ b = .ok y ∧ c = x ++ y := by
  unfold eseq at h
  cases a with
  | error e => exact absurd h (by simp)
  | ok x =>
    cases b with
    | error e => exact absurd h (by simp)
    | ok y => exact ⟨x, y, rfl, rfl, by simpa using h.symm⟩

/-- Impl Byteable for (): writes nothing. -/
def encodeUnit (_ : Unit) : EncodeResult := .ok []

/-- Impl Byteable for (): reads nothing. -/
def decodeUnit (s : Stream) : DecodeResult Unit := .ok ((), s)

/-- Impl Byteable for (T, U): both components in order. -/
def encodePair {α β : Type} (ea : α → EncodeResult) (eb : β → EncodeResult)
    (p : α × β) : EncodeResult := eseq (ea p.1) (eb p.2)

/-- Impl Byteable for (T, U): decode both components in order. -/
def decodePair {α β : Type} (da : Stream → DecodeResult α)
    (db : Stream → DecodeResult β) : Stream → DecodeResult (α × β) :=
  dseq da (fun a => dseq db (fun b s => .ok ((a, b), s)))

/-- Impl Byteable for u16: `write_u16`, big-endian. -/
def encodeU16 (n : Nat) : EncodeResult := .ok (beBytes 2 n)

/-- Impl Byteable for u16: `read_u16`. -/
def decodeU16 : Stream → DecodeResult Nat := readBe 2

/-- Impl Byteable for u32. -/
def encodeU32 (n : Nat) : EncodeResult := .ok (beBytes 4 n)

/-- Impl Byteable for u32. -/
def decodeU32 : Stream → DecodeResult Nat := readBe 4

/-- Impl Byteable for u64. -/
def encodeU64 (n : Nat) : EncodeResult := .ok (beBytes 8 n)

/-- Impl Byteable for u64. -/
def decodeU64 : Stream → DecodeResult Nat := readBe 8

/-- Impl Byteable for i32: `write_i32` writes the 4-byte big-endian
two's-complement bit pattern, which is what the embedded natural carries. -/
def encodeI32 (n : Nat) : EncodeResult := .ok (beBytes 4 n)

/-- Impl Byteable for i32. -/
def decodeI32 : Stream → DecodeResult Nat := readBe 4

/-- Impl Byteable for f32: `write_f32` writes the 4-byte big-endian bit
pattern of the float, which is what the embedded natural carries. -/
def encodeF32 (n : Nat) : EncodeResult := .ok (beBytes 4 n)

/-- Impl Byteable for f32. -/
def decodeF32 : Stream → DecodeResult Nat := readBe 4

/-- Impl Byteable for bool: one byte, `*self as u8`. -/
def encodeBool (b : Bool) : EncodeResult := .ok [if b then 1 else 0]

/-- Impl Byteable for bool: `read_u8() != 0`. -/
def decodeBool (s : Stream) : DecodeResult Bool :=
  match readU8 s with
  | .error e => .error e
  | .ok (v, rest) => .ok (decide (v ≠ 0), rest)

/-- Impl Byteable for `Option of T`: tag byte 1/0 then the payload if present. -/
def encodeOption {α : Type} (enc : α → EncodeResult) : Option α → EncodeResult
  | some v => eseq (.ok [1]) (enc v)
  | none => .ok [0]

/-- Impl Byteable for `Option of T`: tag byte 0 means absent, anything else
is followed by the payload. -/
def decodeOption {α : Type} (dec : Stream → DecodeResult α)
    (s : Stream) : DecodeResult (Option α) :=
  match readU8 s with
  | .error e => .error e
  | .ok (v, rest) =>
    if v = 0 then .ok (none, rest)
    else
      match dec rest with
      | .error e => .error e
      | .ok (x, rest2) => .ok (some x, rest2)

/-- Impl Byteable for `Result of T and E`: tag byte 0 = ok payload,
1 = err payload (Rust `Result` embedded as `Except`). -/
def encodeResultC {τ ε : Type} (et : τ → EncodeResult) (ee : ε → EncodeResult) :
    Except ε τ → EncodeResult
  | .ok v => eseq (.ok [0]) (et v)
  | .error e => eseq (.ok [1]) (ee e)

/-- Impl Byteable for `Result of T and E`: tag byte 0 decodes the ok payload,
anything else the err payload. -/
def decodeResultC {τ ε : Type} (dt : Stream → DecodeResult τ)
    (de : Stream → DecodeResult ε) (s : Stream) : DecodeResult (Except ε τ) :=
  match readU8 s with
  | .error e => .error e
  | .ok (v, rest) =>
    if v = 0 then
      match dt rest with
      | .error e => .error e
      | .ok (x, rest2) => .ok (.ok x, rest2)
    else
      match de rest with
      | .error e => .error e
      | .ok (x, rest2) => .ok (.error x, rest2)

/-- Body of the Vec encode loop: each element in order. -/
def encodeEach {α : Type} (enc : α → EncodeResult) : List α → EncodeResult
  | [] => .ok []
  | x :: xs => eseq (enc x) (encodeEach enc xs)

/-- Impl Byteable for `Vec of T`: reject element counts above `u16::MAX`,
then a 2-byte big-endian count followed by every element. -/
def encodeVec {α : Type} (enc : α → EncodeResult) (v : List α) : EncodeResult :=
  if v.length > 65535 then .error (.tooManyElements 65535 v.length)
  else eseq (.ok (beBytes 2 v.length)) (encodeEach enc v)

/-- Body of the Vec decode loop: `len` elements in order. -/
def decodeCount {α : Type} (dec : Stream → DecodeResult α) :
    Nat → Stream → DecodeResult (List α)
  | 0, s => .ok ([], s)
  | n + 1, s =>
    match dec s with
    | .error e => .error e
    | .ok (x, s1) =>
      match decodeCount dec n s1 with
      | .error e => .error e
      | .ok (xs, s2) => .ok (x :: xs, s2)

/-- Impl Byteable for `Vec of T`: read the 2-byte count, then that many
elements. -/
def decodeVec {α : Type} (dec : Stream → DecodeResult α) (s : Stream) :
    DecodeResult (List α) :=
  match readBe 2 s with
  | .error e => .error e
  | .ok (len, s1) => decodeCount dec len s1

/-- Impl Byteable for String: reject byte lengths above `u16::MAX`, then a
2-byte big-endian byte count followed by the UTF-8 bytes. -/
def encodeString (s : RStr) : EncodeResult :=
  let bs := strBytes s
  if bs.length > 65535 then .error (.tooManyElements 65535 bs.length)
  else .ok (beBytes 2 bs.length ++ bs)

/-- Impl Byteable for String: read the 2-byte byte count, that many bytes,
and validate them with `String::from_utf8`. -/
def decodeString (s : Stream) : DecodeResult RStr :=
  match readBe 2 s with
  | .error e => .error e
  | .ok (len, s1) =>
    match readExact len s1 with
    | .error e => .error e
    | .ok (bs, s2) =>
      match utf8Decode bs with
      | some cs => .ok (cs, s2)
      | none => .error .fromUtf8Error

/-- Impl Byteable for `[u8; N]`: the raw bytes, no length marker. -/
def encodeByteArray (bytes : List Nat) : EncodeResult := .ok bytes

/-- Impl Byteable for `[u8; N]`: read exactly `n` bytes. -/
def decodeByteArray (n : Nat) (s : Stream) : DecodeResult (List Nat) :=
  readExact n s

/-! ### Round-trip lemmas for the primitives -/

theorem rt_unit (x : Unit) : RT encodeUnit decodeUnit x := by
  intro bs r h
  simp only [encodeUnit, Except.ok.injEq] at h
  subst h
  simp [decodeUnit]

theorem rt_u16 (n : Nat) (h : n < 65536) : RT encodeU16 decodeU16 n := by
  intro bs r he
  simp only [encodeU16, Except.ok.injEq] at he
  subst he
  exact readBe_beBytes 2 n (by norm_num; omega) r

theorem rt_u32 (n : Nat) (h : n < 4294967296) : RT encodeU32 decodeU32 n := by
  intro bs r he
  simp only [encodeU32, Except.ok.injEq] at he
  subst he
  exact readBe_beBytes 4 n (by norm_num; omega) r

theorem rt_u64 (n : Nat) (h : n < 18446744073709551616) :
    RT encodeU64 decodeU64 n := by
  intro bs r he
  simp only [encodeU64, Except.ok.injEq] at he
  subst he
  exact readBe_beBytes 8 n (by norm_num; omega) r

theorem rt_i32 (n : Nat) (h : n < 4294967296) : RT encodeI32 decodeI32 n := by
  intro bs r he
  simp only [encodeI32, Except.ok.injEq] at he
  subst he
  exact readBe_beBytes 4 n (by norm_num; omega) r

theorem rt_f32 (n : Nat) (h : n < 4294967296) : RT encodeF32 decodeF32 n := by
  intro bs r he
  simp only [encodeF32, Except.ok.injEq] at he
  subst he
  exact readBe_beBytes 4 n (by norm_num; omega) r

theorem rt_bool (b : Bool) : RT encodeBool decodeBool b := by
  intro bs r he
  simp only [encodeBool, Except.ok.injEq] at he
  subst he
  cases b <;> simp [decodeBool, readU8]

theorem rt_pair {α β : Type} {ea : α → EncodeResult} {eb : β → EncodeResult}
    {da : Stream → DecodeResult α} {db : Stream → DecodeResult β}
    (p : α × β) (ha : RT ea da p.1) (hb : RT eb db p.2) :
    RT (encodePair ea eb) (decodePair da db) p := by
  intro bs r he
  obtain ⟨x, y, hx, hy, rfl⟩ := eseq_ok he
  simp only [decodePair, dseq, List.append_assoc, ha x (y ++ r) hx, hb y r hy]

theorem rt_option {α : Type} {enc : α → EncodeResult}
    {dec : Stream → DecodeResult α} (o : Option α)
    (h : ∀ x ∈ o, RT enc dec x) : RT (encodeOption enc) (decodeOption dec) o := by
  intro bs r he
  cases o with
  | none =>
    simp only [encodeOption, Except.ok.injEq] at he
    subst he
    simp [decodeOption, readU8]
  | some v =>
    simp only [encodeOption] at he
    obtain ⟨x, y, hx, hy, rfl⟩ := eseq_ok he
    simp only [Except.ok.injEq] at hx
    subst hx
    simp only [decodeOption, List.cons_append, List.nil_append, readU8,
      h v (by simp) y r hy]
    simp

theorem rt_resultC {τ ε : Type} {et : τ → EncodeResult} {ee : ε → EncodeResult}
    {dt : Stream → DecodeResult τ} {de : Stream → DecodeResult ε}
    (x : Except ε τ)
    (ht : ∀ v, x = .ok v → RT et dt v) (herr : ∀ e, x = .error e → RT ee de e) :
    RT (encodeResultC et ee) (decodeResultC dt de) x := by
  intro bs r he
  cases x with
  | ok v =>
    simp only [encodeResultC] at he
    obtain ⟨a, y, ha, hy, rfl⟩ := eseq_ok he
    simp only [Except.ok.injEq] at ha
    subst ha
    simp only [decodeResultC, List.cons_append, List.nil_append, readU8,
      if_pos rfl, ht v rfl y r hy]
    simp
  | error e =>
    simp only [encodeResultC] at he
    obtain ⟨a, y, ha, hy, rfl⟩ := eseq_ok he
    simp only [Except.ok.injEq] at ha
    subst ha
    simp only [decodeResultC, List.cons_append, List.nil_append, readU8]
    rw [if_neg (by omega)]
    simp only [herr e rfl y r hy]

theorem rt_each {α : Type} {enc : α → EncodeResult}
    {dec : Stream → DecodeResult α} (v : List α)
    (h : ∀ x ∈ v, RT enc dec x) :
    ∀ bs r, encodeEach enc v = .ok bs →
      decodeCount dec v.length (bs ++ r) = .ok (v, r) := by
  induction v with
  | nil =>
    intro bs r he
    simp only [encodeEach, Except.ok.injEq] at he
    subst he
    simp [decodeCount]
  | cons x xs ih =>
    intro bs r he
    simp only [encodeEach] at he
    obtain ⟨a, y, ha, hy, rfl⟩ := eseq_ok he
    simp only [List.length_cons, decodeCount, List.append_assoc,
      h x (by simp) a (y ++ r) ha, ih (fun z hz => h z (by simp [hz])) y r hy]

theorem rt_vec {α : Type} {enc : α → EncodeResult}
    {dec : Stream → DecodeResult α} (v : List α)
    (h : ∀ x ∈ v, RT enc dec x) : RT (encodeVec enc) (decodeVec dec) v := by
  intro bs r he
  simp only [encodeVec] at he
  split at he
  · exact absurd he (by simp)
  · obtain ⟨a, y, ha, hy, rfl⟩ := eseq_ok he
    simp only [Except.ok.injEq] at ha
    subst ha
    simp only [decodeVec, List.append_assoc]
    rw [readBe_beBytes 2 v.length (by norm_num; omega) (y ++ r)]
    exact rt_each v h y r hy

theorem rt_string (s : RStr) (hwf : StrWF s) : RT encodeString decodeString s := by
  intro bs r he
  simp only [encodeString] at he
  split at he
  · exact absurd he (by simp)
  · simp only [Except.ok.injEq] at he
    subst he
    simp only [decodeString, List.append_assoc,
      readBe_beBytes 2 (strBytes s).length (by norm_num; omega) (strBytes s ++ r),
      readExact_append, utf8Decode_strBytes s hwf]

theorem rt_byteArray (bytes : List Nat) (n : Nat) (hn : bytes.length = n) :
    RT encodeByteArray (decodeByteArray n) bytes := by
  intro bs r he
  simp only [encodeByteArray, Except.ok.injEq] at he
  subst he
  simp only [decodeByteArray]
  rw [← hn, readExact_append]

/-! ### Hashes, keys and signatures (src/hash/mod.rs, src/hash/keys.rs)

`Hash`, `PublicKey`, `PrivateKey` and `Signature` are fixed-size byte arrays
in the source; here they wrap byte lists, with well-formedness predicates for
the lengths where a theorem needs them. -/

/-- A 64-byte SHA-512 digest value (src/hash/mod.rs Hash). -/
structure Hash where
  bytes : List Nat
  deriving DecidableEq, Repr

/-- Well-formedness of a Hash: 64 bytes. -/
def Hash.WF (h : Hash) : Prop := h.bytes.length = 64 ∧ ∀ b ∈ h.bytes, b < 256

/-- A 32-byte Ed25519 public key (src/hash/keys.rs PublicKey). -/
structure PublicKey where
  bytes : List Nat
  deriving DecidableEq, Repr

/-- Well-formedness of a PublicKey: 32 bytes. -/
def PublicKey.WF (k : PublicKey) : Prop :=
  k.bytes.length = 32 ∧ ∀ b ∈ k.bytes, b < 256

/-- A 32-byte Ed25519 private key (src/hash/keys.rs PrivateKey). -/
structure PrivateKey where
  bytes : List Nat
  deriving DecidableEq, Repr

/-- A 64-byte Ed25519 signature (src/hash/keys.rs Signature). -/
structure Signature where
  bytes : List Nat
  deriving DecidableEq, Repr

/-- Well-formedness of a Signature: 64 bytes. -/
def Signature.WF (s : Signature) : Prop :=
  s.bytes.length = 64 ∧ ∀ b ∈ s.bytes, b < 256

/-- Model of `Signature::empty()`: 64 zero bytes. -/
def Signature.empty : Signature := ⟨List.replicate 64 0⟩

/-- Modelled from the spec: the cryptographic collaborators live outside this
repository (the sha2 crate's SHA-512 behind `Hash::digest`, the
ed25519_dalek crate behind `PrivateKey::sign`, `PrivateKey::public_key` and
`PublicKey::verify`); the spec specifies them only at the boundary as
`digest(bytes)->Hash`, `sign(bytes)->Signature`,
`verify(bytes, signature, pubkey)->bool`.  The embedding therefore
quantifies over this record of primitives; theorems needing cryptographic
facts take them as explicit hypotheses. -/
structure CryptoPrims where
  digest : List Nat → Hash
  sign : PrivateKey → List Nat → Signature
  publicKeyOf : PrivateKey → PublicKey
  verify : PublicKey → List Nat → Signature → Bool

/-- Soundness of the signature scheme: a signature made with a private key
verifies under the derived public key (ed25519_dalek guarantees this). -/
def SigSound (C : CryptoPrims) : Prop :=
  ∀ sk msg, C.verify (C.publicKeyOf sk) msg (C.sign sk msg) = true

/-- Message binding of the signature scheme: a signature over one message
never verifies over a different message (ed25519 unforgeability, as the
spec's tamper-detection property assumes). -/
def SigBinding (C : CryptoPrims) : Prop :=
  ∀ sk pk msg msg2, C.verify pk msg2 (C.sign sk msg) = true → msg2 = msg

/-- A concrete instantiation of the crypto boundary used by witnesses and
counterexamples: the digest retains the input bytes and a signature carries
the signed message, so soundness and binding hold by construction. -/
def cryptoW : CryptoPrims where
  digest := fun bs => ⟨bs⟩
  sign := fun _ msg => ⟨msg⟩
  publicKeyOf := fun sk => ⟨0 :: sk.bytes⟩
  verify := fun _ msg sig => decide (sig.bytes = msg)

theorem cryptoW_sound : SigSound cryptoW := by
  intro sk msg
  simp [cryptoW]

theorem cryptoW_binding : SigBinding cryptoW := by
  intro sk pk msg msg2 h
  simpa [cryptoW, eq_comm] using h

/-! ### Title sanitization (src/helpers.rs SanitizedString)

`SanitizedString::new` lower-cases the whole string, decomposes it with NFD,
and keeps only the characters for which `char::is_ascii_alphanumeric` holds.
The two Unicode table functions are modelled character-wise, restricted to
ASCII and the Latin-1/Greek characters exercised here (on which they agree
with the full Unicode tables); `is_ascii_alphanumeric` is modelled in full. -/

/-- Model of `str::to_lowercase` at one character: ASCII A-Z and the Latin-1
uppercase letters map down by 0x20 (0x130-style special cases don't arise for
the characters considered); other characters are unchanged. -/
def charLowercase (c : Nat) : List Nat :=
  if 65 ≤ c ∧ c ≤ 90 then [c + 32]
  else if 0xC0 ≤ c ∧ c ≤ 0xDE ∧ c ≠ 0xD7 then [c + 0x20]
  else [c]

/-- Model of NFD decomposition at one character: the Latin-1 accented
lowercase letters used here decompose into base letter plus combining accent
(U+0301); characters without a decomposition are unchanged. -/
def charNfd (c : Nat) : List Nat :=
  if c = 0xE9 then [0x65, 0x301]
  else if c = 0xED then [0x69, 0x301]
  else if c = 0xFD then [0x79, 0x301]
  else [c]

/-- Model of `char::is_ascii_alphanumeric`. -/
def isAsciiAlphanumeric (c : Nat) : Bool :=
  (48 ≤ c && c ≤ 57) || (65 ≤ c && c ≤ 90) || (97 ≤ c && c ≤ 122)

/-- Modelled from the spec: the claim's word "alphanumeric" refers to Unicode
alphanumeric characters (Rust `char::is_alphanumeric`, i.e. Alphabetic or
Nd); modelled on the characters exercised here, where it agrees with the
Unicode tables (Greek small alpha U+03B1 is Alphabetic). -/
def isUnicodeAlphanumeric (c : Nat) : Bool :=
  isAsciiAlphanumeric c || c = 0x3B1 ||
    (0xC0 ≤ c && c ≤ 0xFF && c ≠ 0xD7 && c ≠ 0xF7)

/-- Model of `SanitizedString::new`: lowercase, then NFD, then keep only
ASCII alphanumerics. -/
def sanitize (s : RStr) : RStr :=
  ((s.flatMap charLowercase).flatMap charNfd).filter
    (fun c => isAsciiAlphanumeric c)

/-! ### Catalog tags (src/db/index/mod.rs)

Only one tag exists, `MangaTag` with `TAG = "mangas"` and
`CONTENT_TABLE = "manga_chapters"`; tags travel as their UTF-8 string. -/

/-- Scalar values of the string "mangas" (`MangaTag::TAG`). -/
def mangaTagStr : RStr := [109, 97, 110, 103, 97, 115]

/-- The `Language` enum (src/helpers.rs), wire discriminants 0..4 assigned
by the derive in declaration order. -/
inductive Language where
  | japanese
  | english
  | french
  | portuguese
  | unknown
  deriving DecidableEq, Repr

/-- Derive-assigned discriminant of a Language value. -/
def Language.disc : Language → Nat
  | .japanese => 0
  | .english => 1
  | .french => 2
  | .portuguese => 3
  | .unknown => 4

/-- The `MangaChapter` tag payload (src/db/index/mod.rs): just a language. -/
structure MangaChapter where
  language : Language
  deriving DecidableEq, Repr

/-- Model of `MangaChapter::to_bytes`: the language discriminant as a u16,
big-endian. -/
def MangaChapter.toBytes (m : MangaChapter) : List Nat :=
  beBytes 2 m.language.disc

/-- The `Magnet` newtype around a String (src/db/mod.rs). -/
structure Magnet where
  inner : RStr
  deriving DecidableEq, Repr

/-- The `I2PAddress` newtype around a String (src/db/user/mod.rs). -/
structure I2PAddress where
  inner : RStr
  deriving DecidableEq, Repr

/-! ### ContentEntry and Content (src/db/mod.rs) -/

/-- A catalog content entry; `progress` is the local-only field (skipped by
serde, absent from `to_bytes`, not encoded, decoded as 0.0).  `enumeration`
and `progress` carry f32 bit patterns. -/
structure ContentEntry where
  title : RStr
  enumeration : Nat
  path : RStr
  content : MangaChapter
  progress : Nat
  deriving DecidableEq, Repr

/-- Model of `ContentEntry::to_bytes`: title bytes, enumeration as f32
big-endian, path bytes, then the tag payload bytes; `progress` is absent. -/
def ContentEntry.toBytes (e : ContentEntry) : List Nat :=
  strBytes e.title ++ beBytes 4 e.enumeration ++ strBytes e.path
    ++ e.content.toBytes

/-- A catalog content record (src/db/mod.rs Content). -/
structure Content where
  signature : Signature
  source : PublicKey
  index_hash : Hash
  timestamp : Nat
  magnet_link : Magnet
  entries : List ContentEntry
  deriving DecidableEq, Repr

/-- Model of `Content::id_bytes`: index hash bytes, timestamp as u64
big-endian, magnet bytes, then every entry's canonical bytes concatenated. -/
def Content.idBytes (index_hash : Hash) (timestamp : Nat) (magnet_link : Magnet)
    (entries : List ContentEntry) : List Nat :=
  index_hash.bytes ++ beBytes 8 timestamp ++ strBytes magnet_link.inner
    ++ (entries.flatMap ContentEntry.toBytes)

/-- Model of `Content::new`. -/
def Content.new (signature : Signature) (source : PublicKey) (index_hash : Hash)
    (timestamp : Nat) (magnet_link : Magnet) (entries : List ContentEntry) :
    Content :=
  ⟨signature, source, index_hash, timestamp, magnet_link, entries⟩

/-- Model of `Content::new_signed`: sign the canonical bytes with the private
key and embed the caller-supplied source key. -/
def Content.newSigned (C : CryptoPrims) (source : PublicKey) (index_hash : Hash)
    (timestamp : Nat) (magnet_link : Magnet) (entries : List ContentEntry)
    (priv_key : PrivateKey) : Content :=
  Content.new (C.sign priv_key (Content.idBytes index_hash timestamp magnet_link entries))
    source index_hash timestamp magnet_link entries

/-- Model of `Content::verify`: recompute the canonical bytes and check the
embedded signature under the embedded source key. -/
def Content.verify (C : CryptoPrims) (c : Content) : Bool :=
  C.verify c.source
    (Content.idBytes c.index_hash c.timestamp c.magnet_link c.entries)
    c.signature

/-! ### Index (src/db/mod.rs) -/

/-- A catalog index record; the tag is type-level in the source and passed
explicitly (as its UTF-8 string) to the functions here.  `release_date`
carries an i32 bit pattern. -/
structure Index where
  hash : Hash
  title : RStr
  release_date : Nat
  source : PublicKey
  signature : Signature
  deriving DecidableEq, Repr

/-- Model of `Index::id_bytes`: tag bytes, sanitized-title bytes, then the
release date as i32 little-endian. -/
def Index.idBytes (tag : RStr) (title : RStr) (release_date : Nat) : List Nat :=
  strBytes tag ++ strBytes (sanitize title) ++ leBytes 4 release_date

/-- Model of `Index::new`: the hash is the digest of the canonical id bytes;
source and signature are stored as given. -/
def Index.new (C : CryptoPrims) (tag : RStr) (title : RStr) (release_date : Nat)
    (source : PublicKey) (signature : Signature) : Index :=
  ⟨C.digest (Index.idBytes tag title release_date), title, release_date,
    source, signature⟩

/-- Model of `Index::new_signed`: build with the derived public key and an
empty signature, then sign the canonical id bytes. -/
def Index.newSigned (C : CryptoPrims) (tag : RStr) (title : RStr)
    (release_date : Nat) (priv_key : PrivateKey) : Index :=
  let base := Index.new C tag title release_date (C.publicKeyOf priv_key)
    Signature.empty
  { base with signature := C.sign priv_key (Index.idBytes tag title release_date) }

/-- Model of `Index::verify`: recompute the canonical id bytes from title and
release date and check the embedded signature under the embedded source key;
the stored hash is not consulted. -/
def Index.verify (C : CryptoPrims) (tag : RStr) (i : Index) : Bool :=
  C.verify i.source (Index.idBytes tag i.title i.release_date) i.signature

/-! ### User (src/db/user/mod.rs) -/

/-- The `TrustLevel` enum; local-only, never signed. -/
inductive TrustLevel where
  | ignore
  | unverified
  | untrusted
  | trusted
  | fullTrust
  deriving DecidableEq, Repr

/-- A user identity record (src/db/user/mod.rs User). -/
structure User where
  pub_key : PublicKey
  name : RStr
  timestamp : Nat
  signature : Signature
  address : I2PAddress
  trust : TrustLevel
  deriving DecidableEq, Repr

/-- Model of `User::new`: trust starts at `Unverified`. -/
def User.new (name : RStr) (timestamp : Nat) (pub_key : PublicKey)
    (signature : Signature) (address : I2PAddress) : User :=
  ⟨pub_key, name, timestamp, signature, address, .unverified⟩

/-- Model of `User::verification_bytes`: name bytes, timestamp as u64
little-endian, then the address bytes. -/
def User.verificationBytes (name : RStr) (timestamp : Nat)
    (address : I2PAddress) : List Nat :=
  strBytes name ++ leBytes 8 timestamp ++ strBytes address.inner

/-- Model of `User::new_signed`: build with the derived public key, then sign
the verification bytes. -/
def User.newSigned (C : CryptoPrims) (name : RStr) (timestamp : Nat)
    (priv_key : PrivateKey) (address : I2PAddress) : User :=
  let base := User.new name timestamp (C.publicKeyOf priv_key) Signature.empty
    address
  { base with signature := C.sign priv_key (User.verificationBytes name timestamp address) }

/-- Model of `User::verify`: recompute the verification bytes and check the
embedded signature under the embedded public key. -/
def User.verify (C : CryptoPrims) (u : User) : Bool :=
  C.verify u.pub_key (User.verificationBytes u.name u.timestamp u.address)
    u.signature

/-- Model of `User::set_trust`. -/
def User.setTrust (u : User) (t : TrustLevel) : User := { u with trust := t }

/-! ### Tagged sum types (src/db/mod.rs, src/db/index/mod.rs) -/

/-- The closed `TaggedIndex` union; the single variant is named `Novel` in
the source but wraps an `Index` of `MangaTag`. -/
inductive TaggedIndex where
  | novel (i : Index)
  deriving DecidableEq, Repr

/-- Model of `TaggedIndex::verify`. -/
def TaggedIndex.verify (C : CryptoPrims) : TaggedIndex → Bool
  | .novel i => Index.verify C mangaTagStr i

/-- The closed `TaggedContent` union with its single Manga variant. -/
inductive TaggedContent where
  | manga (c : Content)
  deriving DecidableEq, Repr

/-- Model of `TaggedContent::index_hash`. -/
def TaggedContent.index_hash : TaggedContent → Hash
  | .manga c => c.index_hash

/-- Model of `TaggedContent::verify`. -/
def TaggedContent.verify (C : CryptoPrims) : TaggedContent → Bool
  | .manga c => Content.verify C c

/-! ### Wire codecs of the model types

Derived impls (byteable-derive/src/lib.rs) encode a struct field by field in
declaration order and an enum as its single discriminant byte; the manual
impls in src/db and src/server/protocol are translated clause by clause. -/

/-- Decimal rendering of a natural (what `to_string()` produces for the
offending discriminant byte). -/
def natToDecStr (n : Nat) : RStr := (Nat.toDigits 10 n).map (fun ch => ch.toNat)

/-- Derived codec of Hash: the raw 64 bytes. -/
def encodeHash (h : Hash) : EncodeResult := .ok h.bytes

/-- Derived codec of Hash: read 64 bytes. -/
def decodeHash (s : Stream) : DecodeResult Hash :=
  match readExact 64 s with
  | .error e => .error e
  | .ok (bs, r) => .ok (⟨bs⟩, r)

/-- Derived codec of PublicKey: the raw 32 bytes. -/
def encodePublicKey (k : PublicKey) : EncodeResult := .ok k.bytes

/-- Derived codec of PublicKey: read 32 bytes. -/
def decodePublicKey (s : Stream) : DecodeResult PublicKey :=
  match readExact 32 s with
  | .error e => .error e
  | .ok (bs, r) => .ok (⟨bs⟩, r)

/-- Derived codec of Signature: the raw 64 bytes. -/
def encodeSignature (sig : Signature) : EncodeResult := .ok sig.bytes

/-- Derived codec of Signature: read 64 bytes. -/
def decodeSignature (s : Stream) : DecodeResult Signature :=
  match readExact 64 s with
  | .error e => .error e
  | .ok (bs, r) => .ok (⟨bs⟩, r)

/-- Derived codec of the Language enum: one discriminant byte. -/
def encodeLanguage (l : Language) : EncodeResult := .ok [l.disc]

/-- Derived codec of the Language enum: unknown discriminants are
`InvalidEnumVariant`. -/
def decodeLanguage (s : Stream) : DecodeResult Language :=
  match readU8 s with
  | .error e => .error e
  | .ok (v, r) =>
    match v with
    | 0 => .ok (.japanese, r)
    | 1 => .ok (.english, r)
    | 2 => .ok (.french, r)
    | 3 => .ok (.portuguese, r)
    | 4 => .ok (.unknown, r)
    | other => .error (.invalidEnumVariant (natToDecStr other) "Language")

/-- Derived codec of MangaChapter: its single Language field. -/
def encodeMangaChapter (m : MangaChapter) : EncodeResult :=
  encodeLanguage m.language

/-- Derived codec of MangaChapter. -/
def decodeMangaChapter : Stream → DecodeResult MangaChapter :=
  dseq decodeLanguage (fun l s => .ok (⟨l⟩, s))

/-- Manual codec of Magnet (src/db/mod.rs): delegates to the String codec. -/
def encodeMagnet (m : Magnet) : EncodeResult := encodeString m.inner

/-- Manual codec of Magnet. -/
def decodeMagnet : Stream → DecodeResult Magnet :=
  dseq decodeString (fun v s => .ok (⟨v⟩, s))

/-- Derived codec of I2PAddress: its single String field. -/
def encodeI2PAddress (a : I2PAddress) : EncodeResult := encodeString a.inner

/-- Derived codec of I2PAddress. -/
def decodeI2PAddress : Stream → DecodeResult I2PAddress :=
  dseq decodeString (fun v s => .ok (⟨v⟩, s))

/-- Manual codec of ContentEntry (src/db/mod.rs): title, enumeration, path,
tag payload; `progress` is not written. -/
def encodeContentEntry (e : ContentEntry) : EncodeResult :=
  eseq (encodeString e.title)
    (eseq (encodeF32 e.enumeration)
      (eseq (encodeString e.path) (encodeMangaChapter e.content)))

/-- Manual codec of ContentEntry: `progress` always decodes to 0.0. -/
def decodeContentEntry : Stream → DecodeResult ContentEntry :=
  dseq decodeString (fun title =>
    dseq decodeF32 (fun enumr =>
      dseq decodeString (fun path =>
        dseq decodeMangaChapter (fun mc s =>
          .ok (⟨title, enumr, path, mc, 0⟩, s)))))

/-- Manual codec of Content (src/db/mod.rs): signature, source, index hash,
timestamp, magnet link, entries. -/
def encodeContent (c : Content) : EncodeResult :=
  eseq (encodeSignature c.signature)
    (eseq (encodePublicKey c.source)
      (eseq (encodeHash c.index_hash)
        (eseq (encodeU64 c.timestamp)
          (eseq (encodeMagnet c.magnet_link)
            (encodeVec encodeContentEntry c.entries)))))

/-- Manual codec of Content. -/
def decodeContent : Stream → DecodeResult Content :=
  dseq decodeSignature (fun sig =>
    dseq decodePublicKey (fun src =>
      dseq decodeHash (fun ih =>
        dseq decodeU64 (fun ts =>
          dseq decodeMagnet (fun ml =>
            dseq (decodeVec decodeContentEntry) (fun es s =>
              .ok (⟨sig, src, ih, ts, ml, es⟩, s)))))))

/-- Manual codec of Index (src/db/mod.rs): hash, title, release date,
source, signature — the stored hash travels on the wire and is accepted
as-is by decode. -/
def encodeIndex (i : Index) : EncodeResult :=
  eseq (encodeHash i.hash)
    (eseq (encodeString i.title)
      (eseq (encodeI32 i.release_date)
        (eseq (encodePublicKey i.source) (encodeSignature i.signature))))

/-- Manual codec of Index. -/
def decodeIndex : Stream → DecodeResult Index :=
  dseq decodeHash (fun h =>
    dseq decodeString (fun title =>
      dseq decodeI32 (fun rd =>
        dseq decodePublicKey (fun src =>
          dseq decodeSignature (fun sig s =>
            .ok (⟨h, title, rd, src, sig⟩, s))))))

/-- Manual codec of TaggedIndex: the tag discriminator string then the
variant payload. -/
def encodeTaggedIndex : TaggedIndex → EncodeResult
  | .novel i => eseq (encodeString mangaTagStr) (encodeIndex i)

/-- Manual codec of TaggedIndex: an unknown discriminator string is
`InvalidEnumVariant`. -/
def decodeTaggedIndex : Stream → DecodeResult TaggedIndex :=
  dseq decodeString (fun tag s =>
    if tag = mangaTagStr then
      match decodeIndex s with
      | .error e => .error e
      | .ok (i, r) => .ok (.novel i, r)
    else .error (.invalidEnumVariant tag "TaggedIndex"))

/-- Manual codec of TaggedContent. -/
def encodeTaggedContent : TaggedContent → EncodeResult
  | .manga c => eseq (encodeString mangaTagStr) (encodeContent c)

/-- Manual codec of TaggedContent. -/
def decodeTaggedContent : Stream → DecodeResult TaggedContent :=
  dseq decodeString (fun tag s =>
    if tag = mangaTagStr then
      match decodeContent s with
      | .error e => .error e
      | .ok (c, r) => .ok (.manga c, r)
    else .error (.invalidEnumVariant tag "TaggedContent"))

/-! ### Protocol framing (src/server/protocol/mod.rs) -/

/-- The protocol version enum; its single variant V1 has discriminant 1. -/
inductive AuroraProtocolVersion where
  | v1
  deriving DecidableEq, Repr

/-- Derived codec of AuroraProtocolVersion. -/
def encodeVersion (_ : AuroraProtocolVersion) : EncodeResult := .ok [1]

/-- Derived codec of AuroraProtocolVersion: unknown discriminants are
`InvalidEnumVariant`. -/
def decodeVersion (s : Stream) : DecodeResult AuroraProtocolVersion :=
  match readU8 s with
  | .error e => .error e
  | .ok (v, r) =>
    match v with
    | 1 => .ok (.v1, r)
    | other => .error (.invalidEnumVariant (natToDecStr other) "AuroraProtocolVersion")

/-- The response status (src/server/protocol/mod.rs AuroraStatus). -/
inductive AuroraStatus where
  | ok
  | notFound (message : RStr)
  | invalidArgument (message : RStr)
  | internalError (message : RStr)
  deriving DecidableEq, Repr

/-- Model of `AuroraStatus::code`. -/
def AuroraStatus.code : AuroraStatus → Nat
  | .ok => 200
  | .invalidArgument _ => 400
  | .notFound _ => 404
  | .internalError _ => 500

/-- Manual codec of AuroraStatus: the 2-byte big-endian code, then the
message for the non-Ok variants. -/
def encodeStatus (st : AuroraStatus) : EncodeResult :=
  eseq (.ok (beBytes 2 st.code))
    (match st with
     | .ok => .ok []
     | .invalidArgument m => encodeString m
     | .notFound m => encodeString m
     | .internalError m => encodeString m)

/-- Manual codec of AuroraStatus: unknown codes are `InvalidEnumVariant`. -/
def decodeStatus (s : Stream) : DecodeResult AuroraStatus :=
  match readBe 2 s with
  | .error e => .error e
  | .ok (code, r) =>
    if code = 200 then .ok (.ok, r)
    else if code = 400 then
      match decodeString r with
      | .error e => .error e
      | .ok (m, r2) => .ok (.invalidArgument m, r2)
    else if code = 404 then
      match decodeString r with
      | .error e => .error e
      | .ok (m, r2) => .ok (.notFound m, r2)
    else if code = 500 then
      match decodeString r with
      | .error e => .error e
      | .ok (m, r2) => .ok (.internalError m, r2)
    else .error (.invalidEnumVariant (natToDecStr code) "AuroraStatus")

/-! ### Command payload structs (src/server/handler) -/

/-- The WhoRequest payload (src/server/handler/users/who.rs). -/
structure WhoRequest where
  request_address : I2PAddress
  deriving DecidableEq, Repr

/-- Derived codec of WhoRequest. -/
def encodeWhoRequest (w : WhoRequest) : EncodeResult :=
  encodeI2PAddress w.request_address

/-- Derived codec of WhoRequest. -/
def decodeWhoRequest : Stream → DecodeResult WhoRequest :=
  dseq decodeI2PAddress (fun a s => .ok (⟨a⟩, s))

/-- The ExchangeContentRequest payload: a u16 count. -/
structure ExchangeContentRequest where
  count : Nat
  deriving DecidableEq, Repr

/-- Derived codec of ExchangeContentRequest. -/
def encodeExchangeContentRequest (rq : ExchangeContentRequest) : EncodeResult :=
  encodeU16 rq.count

/-- Derived codec of ExchangeContentRequest. -/
def decodeExchangeContentRequest : Stream → DecodeResult ExchangeContentRequest :=
  dseq decodeU16 (fun n s => .ok (⟨n⟩, s))

/-- The ExchangeContentResponse payload: the sampled tagged contents. -/
structure ExchangeContentResponse where
  contents : List TaggedContent
  deriving DecidableEq, Repr

/-- Derived codec of ExchangeContentResponse. -/
def encodeExchangeContentResponse (rp : ExchangeContentResponse) : EncodeResult :=
  encodeVec encodeTaggedContent rp.contents

/-- Derived codec of ExchangeContentResponse. -/
def decodeExchangeContentResponse : Stream → DecodeResult ExchangeContentResponse :=
  dseq (decodeVec decodeTaggedContent) (fun cs s => .ok (⟨cs⟩, s))

/-- The GetIndexesRequest payload: requested (tag, hash) pairs. -/
structure GetIndexesRequest where
  indexes : List (RStr × Hash)
  deriving DecidableEq, Repr

/-- Derived codec of GetIndexesRequest (a Vec of String-Hash pairs). -/
def encodeGetIndexesRequest (rq : GetIndexesRequest) : EncodeResult :=
  encodeVec (encodePair encodeString encodeHash) rq.indexes

/-- Derived codec of GetIndexesRequest. -/
def decodeGetIndexesRequest : Stream → DecodeResult GetIndexesRequest :=
  dseq (decodeVec (decodePair decodeString decodeHash)) (fun v s => .ok (⟨v⟩, s))

/-- The GetIndexesResponse payload: the resolved tagged indexes. -/
structure GetIndexesResponse where
  indexes : List TaggedIndex
  deriving DecidableEq, Repr

/-- Derived codec of GetIndexesResponse. -/
def encodeGetIndexesResponse (rp : GetIndexesResponse) : EncodeResult :=
  encodeVec encodeTaggedIndex rp.indexes

/-- Derived codec of GetIndexesResponse. -/
def decodeGetIndexesResponse : Stream → DecodeResult GetIndexesResponse :=
  dseq (decodeVec decodeTaggedIndex) (fun v s => .ok (⟨v⟩, s))

/-! ### Round-trip lemmas for the model types -/

theorem rt_step {α β : Type} {ea : α → EncodeResult} {da : Stream → DecodeResult α}
    {x : α} (hx : RT ea da x) {erest : EncodeResult} {k : α → Stream → DecodeResult β}
    {v : β} (hrest : ∀ y r, erest = .ok y → k x (y ++ r) = .ok (v, r)) :
    ∀ bs r, eseq (ea x) erest = .ok bs → dseq da k (bs ++ r) = .ok (v, r) := by
  intro bs r he
  obtain ⟨a, y, ha, hy, rfl⟩ := eseq_ok he
  rw [List.append_assoc]
  unfold dseq
  rw [hx a (y ++ r) ha]
  exact hrest y r hy

theorem rt_last {α β : Type} {ea : α → EncodeResult} {da : Stream → DecodeResult α}
    {x : α} (hx : RT ea da x) (f : α → β) :
    ∀ y r, ea x = .ok y → dseq da (fun a s => .ok (f a, s)) (y ++ r) = .ok (f x, r) := by
  intro y r he
  unfold dseq
  rw [hx y r he]

theorem rt_hash (h : Hash) (hlen : h.bytes.length = 64) :
    RT encodeHash decodeHash h := by
  intro bs r he
  simp only [encodeHash, Except.ok.injEq] at he
  subst he
  simp only [decodeHash, ← hlen, readExact_append]

theorem rt_publicKey (k : PublicKey) (hlen : k.bytes.length = 32) :
    RT encodePublicKey decodePublicKey k := by
  intro bs r he
  simp only [encodePublicKey, Except.ok.injEq] at he
  subst he
  simp only [decodePublicKey, ← hlen, readExact_append]

theorem rt_signature (sig : Signature) (hlen : sig.bytes.length = 64) :
    RT encodeSignature decodeSignature sig := by
  intro bs r he
  simp only [encodeSignature, Except.ok.injEq] at he
  subst he
  simp only [decodeSignature, ← hlen, readExact_append]

theorem rt_language (l : Language) : RT encodeLanguage decodeLanguage l := by
  intro bs r he
  simp only [encodeLanguage, Except.ok.injEq] at he
  subst he
  cases l <;> simp [decodeLanguage, readU8, Language.disc]

theorem rt_mangaChapter (m : MangaChapter) :
    RT encodeMangaChapter decodeMangaChapter m := by
  intro bs r he
  have h := rt_last (rt_language m.language)
    (fun l => (⟨l⟩ : MangaChapter)) bs r he
  exact h

theorem rt_magnet (m : Magnet) (hwf : StrWF m.inner) :
    RT encodeMagnet decodeMagnet m := by
  intro bs r he
  have h := rt_last (rt_string m.inner hwf) (fun v => (⟨v⟩ : Magnet)) bs r he
  exact h

theorem rt_i2pAddress (a : I2PAddress) (hwf : StrWF a.inner) :
    RT encodeI2PAddress decodeI2PAddress a := by
  intro bs r he
  have h := rt_last (rt_string a.inner hwf) (fun v => (⟨v⟩ : I2PAddress)) bs r he
  exact h

/-- Well-formedness of a content entry for wire purposes: valid strings and
an in-range f32 bit pattern (the local-only progress is unconstrained). -/
def ContentEntry.WF (e : ContentEntry) : Prop :=
  StrWF e.title ∧ StrWF e.path ∧ e.enumeration < 4294967296

instance (e : ContentEntry) : Decidable e.WF := by
  unfold ContentEntry.WF; infer_instance

theorem rt_contentEntry (e : ContentEntry) (hwf : e.WF) (hp : e.progress = 0) :
    RT encodeContentEntry decodeContentEntry e := by
  obtain ⟨ht, hpa, hen⟩ := hwf
  intro bs r he
  refine rt_step (rt_string e.title ht)
    (rt_step (rt_f32 e.enumeration hen)
      (rt_step (rt_string e.path hpa)
        (rt_last (rt_mangaChapter e.content)
          (fun mc => (⟨e.title, e.enumeration, e.path, mc, 0⟩ : ContentEntry)))))
    bs r ?_ |>.trans ?_
  · exact he
  · rw [show (⟨e.title, e.enumeration, e.path, e.content, 0⟩ : ContentEntry) = e by
      cases e; simp_all]

/-- Well-formedness of a content record for wire purposes. -/
def Content.WF (c : Content) : Prop :=
  c.signature.bytes.length = 64 ∧ c.source.bytes.length = 32 ∧
    c.index_hash.bytes.length = 64 ∧ c.timestamp < 18446744073709551616 ∧
    StrWF c.magnet_link.inner ∧ ∀ e ∈ c.entries, e.WF

instance (c : Content) : Decidable c.WF := by
  unfold Content.WF; infer_instance

theorem rt_content (c : Content) (hwf : c.WF)
    (hp : ∀ e ∈ c.entries, e.progress = 0) :
    RT encodeContent decodeContent c := by
  obtain ⟨h1, h2, h3, h4, h5, h6⟩ := hwf
  intro bs r he
  refine rt_step (rt_signature c.signature h1)
    (rt_step (rt_publicKey c.source h2)
      (rt_step (rt_hash c.index_hash h3)
        (rt_step (rt_u64 c.timestamp h4)
          (rt_step (rt_magnet c.magnet_link h5)
            (rt_last (rt_vec c.entries
                (fun e heq => rt_contentEntry e (h6 e heq) (hp e heq)))
              (fun es => (⟨c.signature, c.source, c.index_hash, c.timestamp,
                c.magnet_link, es⟩ : Content)))))))
    bs r ?_ |>.trans ?_
  · exact he
  · rfl

/-- Well-formedness of an index record for wire purposes. -/
def Index.WF (i : Index) : Prop :=
  i.hash.bytes.length = 64 ∧ StrWF i.title ∧ i.release_date < 4294967296 ∧
    i.source.bytes.length = 32 ∧ i.signature.bytes.length = 64

instance (i : Index) : Decidable i.WF := by
  unfold Index.WF; infer_instance

theorem rt_index (i : Index) (hwf : i.WF) : RT encodeIndex decodeIndex i := by
  obtain ⟨h1, h2, h3, h4, h5⟩ := hwf
  intro bs r he
  refine rt_step (rt_hash i.hash h1)
    (rt_step (rt_string i.title h2)
      (rt_step (rt_i32 i.release_date h3)
        (rt_step (rt_publicKey i.source h4)
          (rt_last (rt_signature i.signature h5)
            (fun sig => (⟨i.hash, i.title, i.release_date, i.source, sig⟩ : Index))))))
    bs r ?_ |>.trans ?_
  · exact he
  · rfl

theorem mangaTagStr_wf : StrWF mangaTagStr := by decide

theorem rt_taggedIndex (t : TaggedIndex)
    (hwf : ∀ i, t = .novel i → i.WF) : RT encodeTaggedIndex decodeTaggedIndex t := by
  intro bs r he
  cases t with
  | novel i =>
    simp only [encodeTaggedIndex] at he
    obtain ⟨a, y, ha, hy, rfl⟩ := eseq_ok he
    simp [decodeTaggedIndex, dseq, List.append_assoc,
      rt_string mangaTagStr mangaTagStr_wf a (y ++ r) ha,
      rt_index i (hwf i rfl) y r hy]

theorem rt_taggedContent (t : TaggedContent)
    (hwf : ∀ c, t = .manga c → c.WF ∧ ∀ e ∈ c.entries, e.progress = 0) :
    RT encodeTaggedContent decodeTaggedContent t := by
  intro bs r he
  cases t with
  | manga c =>
    simp only [encodeTaggedContent] at he
    obtain ⟨a, y, ha, hy, rfl⟩ := eseq_ok he
    simp [decodeTaggedContent, dseq, List.append_assoc,
      rt_string mangaTagStr mangaTagStr_wf a (y ++ r) ha,
      rt_content c (hwf c rfl).1 (hwf c rfl).2 y r hy]

theorem rt_version (v : AuroraProtocolVersion) : RT encodeVersion decodeVersion v := by
  intro bs r he
  simp only [encodeVersion, Except.ok.injEq] at he
  subst he
  cases v
  simp [decodeVersion, readU8]

theorem rt_status (st : AuroraStatus)
    (hwf : ∀ m, st = .notFound m ∨ st = .invalidArgument m ∨ st = .internalError m →
      StrWF m) : RT encodeStatus decodeStatus st := by
  intro bs r he
  cases st with
  | ok =>
    simp only [encodeStatus] at he
    obtain ⟨a, y, ha, hy, rfl⟩ := eseq_ok he
    simp only [Except.ok.injEq] at ha hy
    subst ha; subst hy
    simp only [decodeStatus, List.append_assoc,
      readBe_beBytes 2 (AuroraStatus.code .ok) (by norm_num [AuroraStatus.code]) _]
    simp [AuroraStatus.code]
  | invalidArgument m =>
    simp only [encodeStatus] at he
    obtain ⟨a, y, ha, hy, rfl⟩ := eseq_ok he
    simp only [Except.ok.injEq] at ha
    subst ha
    simp [decodeStatus, List.append_assoc, AuroraStatus.code,
      readBe_beBytes 2 400 (by norm_num) (y ++ r),
      rt_string m (hwf m (Or.inr (Or.inl rfl))) y r hy]
  | notFound m =>
    simp only [encodeStatus] at he
    obtain ⟨a, y, ha, hy, rfl⟩ := eseq_ok he
    simp only [Except.ok.injEq] at ha
    subst ha
    simp [decodeStatus, List.append_assoc, AuroraStatus.code,
      readBe_beBytes 2 404 (by norm_num) (y ++ r),
      rt_string m (hwf m (Or.inl rfl)) y r hy]
  | internalError m =>
    simp only [encodeStatus] at he
    obtain ⟨a, y, ha, hy, rfl⟩ := eseq_ok he
    simp only [Except.ok.injEq] at ha
    subst ha
    simp [decodeStatus, List.append_assoc, AuroraStatus.code,
      readBe_beBytes 2 500 (by norm_num) (y ++ r),
      rt_string m (hwf m (Or.inr (Or.inr rfl))) y r hy]

theorem rt_whoRequest (w : WhoRequest) (hwf : StrWF w.request_address.inner) :
    RT encodeWhoRequest decodeWhoRequest w := by
  intro bs r he
  have h := rt_last (rt_i2pAddress w.request_address hwf)
    (fun a => (⟨a⟩ : WhoRequest)) bs r he
  exact h

theorem rt_exchangeContentRequest (rq : ExchangeContentRequest)
    (h : rq.count < 65536) :
    RT encodeExchangeContentRequest decodeExchangeContentRequest rq := by
  intro bs r he
  have hh := rt_last (rt_u16 rq.count h)
    (fun n => (⟨n⟩ : ExchangeContentRequest)) bs r he
  exact hh

theorem rt_exchangeContentResponse (rp : ExchangeContentResponse)
    (hwf : ∀ t ∈ rp.contents, ∀ c, t = .manga c → c.WF ∧
      ∀ e ∈ c.entries, e.progress = 0) :
    RT encodeExchangeContentResponse decodeExchangeContentResponse rp := by
  intro bs r he
  have h := rt_last (rt_vec rp.contents (fun t ht => rt_taggedContent t (hwf t ht)))
    (fun cs => (⟨cs⟩ : ExchangeContentResponse)) bs r he
  exact h

theorem rt_getIndexesRequest (rq : GetIndexesRequest)
    (hwf : ∀ p ∈ rq.indexes, StrWF p.1 ∧ p.2.bytes.length = 64) :
    RT encodeGetIndexesRequest decodeGetIndexesRequest rq := by
  intro bs r he
  have h := rt_last (rt_vec rq.indexes (fun p hp =>
      rt_pair p (rt_string p.1 (hwf p hp).1) (rt_hash p.2 (hwf p hp).2)))
    (fun v => (⟨v⟩ : GetIndexesRequest)) bs r he
  exact h

theorem rt_getIndexesResponse (rp : GetIndexesResponse)
    (hwf : ∀ t ∈ rp.indexes, ∀ i, t = .novel i → i.WF) :
    RT encodeGetIndexesResponse decodeGetIndexesResponse rp := by
  intro bs r he
  have h := rt_last (rt_vec rp.indexes (fun t ht => rt_taggedIndex t (hwf t ht)))
    (fun v => (⟨v⟩ : GetIndexesResponse)) bs r he
  exact h

/-! ### Repository state (src/db/index/surreal.rs, src/db/user/surreal.rs)

The SurrealDB tables behind the repositories are embedded as association
lists keyed the way the source keys its records: indexes by their hash (the
mangas table), contents by their signature (the manga_chapters table), users
by their public key.  `upsert` replaces the record under an existing key or
appends a new one; the database error paths of the source (surface as logged
`DatabaseError`s) do not arise in the pure embedding, so every repository
call succeeds. -/

/-- Keyed lookup in an association list (the repository's select-by-id). -/
def lookupA {κ ν : Type} [DecidableEq κ] (l : List (κ × ν)) (k : κ) : Option ν :=
  match l.find? (fun p => decide (p.1 = k)) with
  | some p => some p.2
  | none => none

/-- Keyed upsert in an association list (SurrealDB `upsert ... content`):
replace the record under the key if present, else append it. -/
def upsertA {κ ν : Type} [DecidableEq κ] (l : List (κ × ν)) (k : κ) (v : ν) :
    List (κ × ν) :=
  match l with
  | [] => [(k, v)]
  | p :: rest => if p.1 = k then (k, v) :: rest else p :: upsertA rest k v

theorem upsertA_of_lookup_eq {κ ν : Type} [DecidableEq κ]
    (l : List (κ × ν)) (k : κ) (v : ν) (h : lookupA l k = some v) :
    upsertA l k v = l := by
  induction l with
  | nil => simp [lookupA] at h
  | cons p rest ih =>
    obtain ⟨p1, p2⟩ := p
    by_cases hk : p1 = k
    · simp only [lookupA, List.find?_cons, decide_eq_true hk,
        Option.some.injEq] at h
      subst hk
      subst h
      simp [upsertA]
    · simp only [lookupA, List.find?_cons, decide_eq_false hk] at h
      simp [upsertA, hk, ih h]

theorem lookupA_upsertA_self {κ ν : Type} [DecidableEq κ]
    (l : List (κ × ν)) (k : κ) (v : ν) :
    lookupA (upsertA l k v) k = some v := by
  induction l with
  | nil => simp [upsertA, lookupA]
  | cons p rest ih =>
    by_cases hk : p.1 = k
    · simp [upsertA, hk, lookupA]
    · simp only [upsertA, hk, if_false]
      simp only [lookupA, List.find?_cons, decide_eq_false hk] at ih ⊢
      exact ih

theorem lookupA_upsertA_other {κ ν : Type} [DecidableEq κ]
    (l : List (κ × ν)) (k k2 : κ) (v : ν) (hne : k2 ≠ k) :
    lookupA (upsertA l k v) k2 = lookupA l k2 := by
  induction l with
  | nil =>
    simp only [upsertA, lookupA, List.find?_cons, List.find?_nil,
      decide_eq_false (Ne.symm hne)]
  | cons p rest ih =>
    by_cases hk : p.1 = k
    · have hp2 : ¬p.1 = k2 := by rw [hk]; exact Ne.symm hne
      simp only [upsertA, hk, if_pos trivial, lookupA, List.find?_cons,
        decide_eq_false (Ne.symm hne), decide_eq_false hp2]
    · simp only [upsertA, hk, if_false, lookupA, List.find?_cons]
      by_cases hp : p.1 = k2
      · simp [decide_eq_true hp]
      · simp only [decide_eq_false hp]
        simpa [lookupA] using ih

/-- The node's repositories as the exchange algorithm touches them. -/
structure ExchangeState where
  indexRepo : List (Hash × Index)
  contentRepo : List (Signature × Content)
  userRepo : List (PublicKey × User)
  deriving DecidableEq, Repr

/-! ### The Who handshake payloads (src/server/handler/users) -/

/-- The UserResponse payload: a User without its local-only trust field. -/
structure UserResponse where
  pub_key : PublicKey
  name : RStr
  signature : Signature
  timestamp : Nat
  address : I2PAddress
  deriving DecidableEq, Repr

/-- Model of `UserResponse::as_user` (trust starts at Unverified via
`User::new`). -/
def UserResponse.asUser (u : UserResponse) : User :=
  User.new u.name u.timestamp u.pub_key u.signature u.address

/-- The WhoResponse payload: the peer's user record plus an address-bound
freshness signature. -/
structure WhoResponseW where
  user : UserResponse
  timestamp : Nat
  signature : Signature
  deriving DecidableEq, Repr

/-- Model of `WhoResponse::verification_bytes`: timestamp little-endian then
the requesting address bytes. -/
def WhoResponseW.verificationBytes (w : WhoResponseW)
    (request_address : I2PAddress) : List Nat :=
  leBytes 8 w.timestamp ++ strBytes request_address.inner

/-- Model of `WhoResponse::verify`. -/
def WhoResponseW.verify (C : CryptoPrims) (w : WhoResponseW)
    (request_address : I2PAddress) : Bool :=
  C.verify w.user.pub_key (w.verificationBytes request_address) w.signature

/-! ### The exchange client (src/server/client/mod.rs)

`routine_exchange` is embedded as a pure function of the peer's responses.
The peer is a model: its Who payload, the sampled contents returned by
ExchangeContent, and its GetIndexes response as a function of the request.
Transport and frame decoding are not modelled (a transport failure aborts
the whole exchange before any of the steps below); the repository calls
always succeed as noted above. -/

/-- Errors the modelled exchange can surface. -/
inductive ClientErrorM where
  | invalidSignature
  deriving DecidableEq, Repr

/-- A peer as `routine_exchange` observes it over one connection. -/
structure PeerModel where
  who : WhoResponseW
  contents : List TaggedContent
  indexResponse : List (RStr × Hash) → List TaggedIndex

/-- Model of `AuroraClient::who_internal`: check the freshness signature
against the requester's own address, convert to a User, check the user
signature, and mark the peer Untrusted. -/
def whoInternalM (C : CryptoPrims) (peer : PeerModel) (host : I2PAddress) :
    Except ClientErrorM User :=
  if WhoResponseW.verify C peer.who host = false then .error .invalidSignature
  else
    let user := peer.who.user.asUser
    if User.verify C user = false then .error .invalidSignature
    else .ok (user.setTrust .untrusted)

/-- Insert into the HashSet of existing index hashes. -/
def insertHash (s : List Hash) (h : Hash) : List Hash :=
  if h ∈ s then s else s ++ [h]

/-- The body of the diff loop of `routine_exchange` on one sampled content:
a hash found in the local index repository goes into the existing set, a
missing one appends a (tag, hash) request pair — with no deduplication. -/
def diffOne (st : ExchangeState) (acc : List Hash × List (RStr × Hash))
    (content : TaggedContent) : List Hash × List (RStr × Hash) :=
  match content with
  | .manga c =>
    match lookupA st.indexRepo c.index_hash with
    | some _ => (insertHash acc.1 c.index_hash, acc.2)
    | none => (acc.1, acc.2 ++ [(mangaTagStr, c.index_hash)])

/-- The diff loop, processing the sampled contents in order. -/
def diffGo (st : ExchangeState) (acc : List Hash × List (RStr × Hash)) :
    List TaggedContent → List Hash × List (RStr × Hash)
  | [] => acc
  | content :: rest => diffGo st (diffOne st acc content) rest

/-- The diff step of `routine_exchange`, starting from an empty set and an
empty request list. -/
def diffStep (st : ExchangeState) (contents : List TaggedContent) :
    List Hash × List (RStr × Hash) :=
  diffGo st ([], []) contents

/-- The body of the backfill loop on one returned index: one that fails
verification is skipped (logged in the source); a verified one is upserted
into the index repository under its own hash, which is then added to the
existing set.  The log records the indexes passed to `add_index`. -/
def backfillOne (C : CryptoPrims) (acc : ExchangeState × List Hash × List Index)
    (ti : TaggedIndex) : ExchangeState × List Hash × List Index :=
  if TaggedIndex.verify C ti = false then acc
  else
    match ti with
    | .novel i =>
      ({ acc.1 with indexRepo := upsertA acc.1.indexRepo i.hash i },
        insertHash acc.2.1 i.hash, acc.2.2 ++ [i])

/-- The backfill loop, processing the returned indexes in order. -/
def backfillGo (C : CryptoPrims) (acc : ExchangeState × List Hash × List Index) :
    List TaggedIndex → ExchangeState × List Hash × List Index
  | [] => acc
  | ti :: rest => backfillGo C (backfillOne C acc ti) rest

/-- The backfill step of `routine_exchange`. -/
def backfillStep (C : CryptoPrims) (st : ExchangeState) (existing : List Hash)
    (returned : List TaggedIndex) : ExchangeState × List Hash × List Index :=
  backfillGo C (st, existing, []) returned

/-- The body of the commit loop on one sampled content: a content whose
index hash is not in the existing set is skipped; a surviving one is skipped
if its own signature fails; otherwise it is upserted into the content
repository under its signature.  The log records the contents passed to
`add_content`. -/
def commitOne (C : CryptoPrims) (existing : List Hash)
    (acc : ExchangeState × List Content) (content : TaggedContent) :
    ExchangeState × List Content :=
  if TaggedContent.index_hash content ∉ existing then acc
  else if TaggedContent.verify C content = false then acc
  else
    match content with
    | .manga c =>
      ({ acc.1 with contentRepo := upsertA acc.1.contentRepo c.signature c },
        acc.2 ++ [c])

/-- The commit loop, processing the originally sampled contents in order. -/
def commitGo (C : CryptoPrims) (existing : List Hash)
    (acc : ExchangeState × List Content) :
    List TaggedContent → ExchangeState × List Content
  | [] => acc
  | content :: rest => commitGo C existing (commitOne C existing acc content) rest

/-- The commit step of `routine_exchange`. -/
def commitStep (C : CryptoPrims) (st : ExchangeState) (existing : List Hash)
    (contents : List TaggedContent) : ExchangeState × List Content :=
  commitGo C existing (st, []) contents

/-- What one `routine_exchange` run did, step by step. -/
structure ExchangeTrace where
  missingIndexes : List (RStr × Hash)
  existingAfterDiff : List Hash
  existingAtCommit : List Hash
  addedIndexes : List Index
  addedContents : List Content
  deriving DecidableEq, Repr

/-- Model of `AuroraClient::routine_exchange`: identify (Who, abort on a bad
signature), upsert the peer user, sample, diff, backfill, commit. -/
def routineExchange (C : CryptoPrims) (peer : PeerModel) (host : I2PAddress)
    (st : ExchangeState) : Except ClientErrorM (ExchangeState × ExchangeTrace) :=
  match whoInternalM C peer host with
  | .error e => .error e
  | .ok who =>
    let st1 := { st with userRepo := upsertA st.userRepo who.pub_key who }
    let contents := peer.contents
    let diffed := diffStep st1 contents
    let returned := peer.indexResponse diffed.2
    let filled := backfillStep C st1 diffed.1 returned
    let committed := commitStep C filled.1 filled.2.1 contents
    .ok (committed.1,
      ⟨diffed.2, diffed.1, filled.2.1, filled.2.2, committed.2⟩)

/-- Model of the GetIndexes handler (src/server/handler/index/get_indexes.rs)
over a fixed peer-side index repository: each requested pair with the manga
tag resolves independently and unresolved pairs are silently dropped.  Used
to describe an honest, unchanged peer. -/
def getIndexesHandler (repo : List (Hash × Index)) (req : List (RStr × Hash)) :
    List TaggedIndex :=
  req.filterMap (fun p =>
    if p.1 = mangaTagStr then (lookupA repo p.2).map TaggedIndex.novel
    else none)

/-! ### The server dispatch loop (src/server/mod.rs, handler/mod.rs, macros.rs)

The per-connection loop decodes a protocol version; an unexpected-EOF I/O
error breaks silently, any other decode error logs and breaks.  `V1::handle`
then decodes the category byte and the command byte with `.unwrap()`, so a
decode failure there panics the connection task instead of logging. -/

/-- The command category enum generated for V1 (Users = 0, Index = 1). -/
inductive CommandCategoryV1 where
  | users
  | index
  deriving DecidableEq, Repr

/-- Derived codec of the V1 category byte. -/
def decodeCategoryV1 (s : Stream) : DecodeResult CommandCategoryV1 :=
  match readU8 s with
  | .error e => .error e
  | .ok (v, r) =>
    match v with
    | 0 => .ok (.users, r)
    | 1 => .ok (.index, r)
    | other => .error (.invalidEnumVariant (natToDecStr other) "AuroraProtocolCommandCategoryV1")

/-- The Users command enum for V1 (GetUsers = 0, Who = 1). -/
inductive UsersCommandV1 where
  | getUsers
  | who
  deriving DecidableEq, Repr

/-- Derived codec of the V1 Users command byte. -/
def decodeUsersCommandV1 (s : Stream) : DecodeResult UsersCommandV1 :=
  match readU8 s with
  | .error e => .error e
  | .ok (v, r) =>
    match v with
    | 0 => .ok (.getUsers, r)
    | 1 => .ok (.who, r)
    | other => .error (.invalidEnumVariant (natToDecStr other) "UsersCommandV1")

/-- The Index command enum for V1 (GetAllIndexes = 0, ExchangeContent = 1,
GetIndexes = 2). -/
inductive IndexCommandV1 where
  | getAllIndexes
  | exchangeContent
  | getIndexes
  deriving DecidableEq, Repr

/-- Derived codec of the V1 Index command byte. -/
def decodeIndexCommandV1 (s : Stream) : DecodeResult IndexCommandV1 :=
  match readU8 s with
  | .error e => .error e
  | .ok (v, r) =>
    match v with
    | 0 => .ok (.getAllIndexes, r)
    | 1 => .ok (.exchangeContent, r)
    | 2 => .ok (.getIndexes, r)
    | other => .error (.invalidEnumVariant (natToDecStr other) "IndexCommandV1")

/-- How one iteration of the per-connection loop ends. -/
inductive LoopOutcome where
  | silentTermination
  | loggedTermination
  | panicked
  | dispatched (category : Nat) (command : Nat) (rest : Stream)
  deriving DecidableEq, Repr

/-- Model of `V1::handle` (the macro-generated body): the category byte and
the command byte are decoded with `.unwrap()`, so any decode error panics
the connection task; a decoded command dispatches its handler. -/
def v1Handle (s : Stream) : LoopOutcome :=
  match decodeCategoryV1 s with
  | .error _ => .panicked
  | .ok (cat, s1) =>
    match cat with
    | .users =>
      match decodeUsersCommandV1 s1 with
      | .error _ => .panicked
      | .ok (cmd, s2) =>
        match cmd with
        | .getUsers => .dispatched 0 0 s2
        | .who => .dispatched 0 1 s2
    | .index =>
      match decodeIndexCommandV1 s1 with
      | .error _ => .panicked
      | .ok (cmd, s2) =>
        match cmd with
        | .getAllIndexes => .dispatched 1 0 s2
        | .exchangeContent => .dispatched 1 1 s2
        | .getIndexes => .dispatched 1 2 s2

/-- Model of one iteration of the accept-loop body in `AuroraServer::run`:
decode the version byte, breaking silently on unexpected EOF and logging
then breaking on any other decode error; on success hand the stream to
`V1::handle`. -/
def serverLoopStep (s : Stream) : LoopOutcome :=
  match decodeVersion s with
  | .error e =>
    match e with
    | .ioError kind =>
      match kind with
      | .unexpectedEof => .silentTermination
      | .otherKind => .loggedTermination
    | _ => .loggedTermination
  | .ok (v, s1) =>
    match v with
    | .v1 => v1Handle s1

/-! ### Characterizations of the exchange loops -/

theorem mem_insertHash (s : List Hash) (h x : Hash) :
    x ∈ insertHash s h ↔ x ∈ s ∨ x = h := by
  unfold insertHash
  by_cases hm : h ∈ s
  · simp only [hm, if_pos trivial]
    constructor
    · exact Or.inl
    · rintro (hx | rfl)
      · exact hx
      · exact hm
  · simp [hm]

theorem insertHash_nodup (s : List Hash) (h : Hash) (hs : s.Nodup) :
    (insertHash s h).Nodup := by
  unfold insertHash
  by_cases hm : h ∈ s
  · simpa [hm]
  · simp [hm, List.nodup_append, hs]

/-- The pairs the diff loop requests: one per sampled content whose index
hash is absent locally, in sample order, duplicates preserved. -/
def missingOf (st : ExchangeState) (cs : List TaggedContent) : List (RStr × Hash) :=
  cs.filterMap (fun tc =>
    match tc with
    | .manga c =>
      if (lookupA st.indexRepo c.index_hash).isSome then none
      else some (mangaTagStr, c.index_hash))

theorem diffGo_snd (st : ExchangeState) (acc : List Hash × List (RStr × Hash))
    (cs : List TaggedContent) :
    (diffGo st acc cs).2 = acc.2 ++ missingOf st cs := by
  induction cs generalizing acc with
  | nil => simp [diffGo, missingOf]
  | cons tc rest ih =>
    cases tc with
    | manga c =>
      simp only [diffGo, diffOne, missingOf, List.filterMap_cons]
      cases hl : lookupA st.indexRepo c.index_hash with
      | none =>
        rw [ih]
        simp [missingOf, hl]
      | some i =>
        rw [ih]
        simp [missingOf, hl]

theorem diffGo_fst_mem (st : ExchangeState) (acc : List Hash × List (RStr × Hash))
    (cs : List TaggedContent) (h : Hash) :
    h ∈ (diffGo st acc cs).1 ↔ h ∈ acc.1 ∨
      ∃ c : Content, TaggedContent.manga c ∈ cs ∧ c.index_hash = h ∧
        (lookupA st.indexRepo h).isSome := by
  induction cs generalizing acc with
  | nil => simp [diffGo]
  | cons tc rest ih =>
    cases tc with
    | manga c =>
      simp only [diffGo, diffOne]
      cases hl : lookupA st.indexRepo c.index_hash with
      | none =>
        rw [ih]
        constructor
        · rintro (ha | ⟨c2, hc2, rfl, hsome⟩)
          · exact Or.inl ha
          · exact Or.inr ⟨c2, by simp [hc2], rfl, hsome⟩
        · rintro (ha | ⟨c2, hc2, rfl, hsome⟩)
          · exact Or.inl ha
          · simp only [List.mem_cons] at hc2
            rcases hc2 with heq | hc2
            · obtain rfl : c = c2 := by injection heq with hh; first | exact hh | exact hh.symm
              simp [hl] at hsome
            · exact Or.inr ⟨c2, hc2, rfl, hsome⟩
      | some i =>
        rw [ih]
        simp only [mem_insertHash]
        constructor
        · rintro ((ha | rfl) | ⟨c2, hc2, rfl, hsome⟩)
          · exact Or.inl ha
          · exact Or.inr ⟨c, by simp, rfl, by simp [hl]⟩
          · exact Or.inr ⟨c2, by simp [hc2], rfl, hsome⟩
        · rintro (ha | ⟨c2, hc2, rfl, hsome⟩)
          · exact Or.inl (Or.inl ha)
          · simp only [List.mem_cons] at hc2
            rcases hc2 with heq | hc2
            · obtain rfl : c = c2 := by injection heq with hh; first | exact hh | exact hh.symm
              exact Or.inl (Or.inr rfl)
            · exact Or.inr ⟨c2, hc2, rfl, hsome⟩

theorem diffGo_fst_nodup (st : ExchangeState) (acc : List Hash × List (RStr × Hash))
    (cs : List TaggedContent) (hnd : acc.1.Nodup) :
    (diffGo st acc cs).1.Nodup := by
  induction cs generalizing acc with
  | nil => simpa [diffGo]
  | cons tc rest ih =>
    cases tc with
    | manga c =>
      simp only [diffGo, diffOne]
      cases hl : lookupA st.indexRepo c.index_hash with
      | none => exact ih _ hnd
      | some i => exact ih _ (insertHash_nodup _ _ hnd)

/-- The indexes the backfill loop persists: the verified returned ones, in
response order. -/
def backfilledOf (C : CryptoPrims) (ret : List TaggedIndex) : List Index :=
  ret.filterMap (fun ti =>
    match ti with
    | .novel i => if Index.verify C mangaTagStr i = true then some i else none)

theorem backfillGo_log (C : CryptoPrims) (acc : ExchangeState × List Hash × List Index)
    (ret : List TaggedIndex) :
    (backfillGo C acc ret).2.2 = acc.2.2 ++ backfilledOf C ret := by
  induction ret generalizing acc with
  | nil => simp [backfillGo, backfilledOf]
  | cons ti rest ih =>
    cases ti with
    | novel i =>
      simp only [backfillGo, backfillOne, backfilledOf, List.filterMap_cons]
      by_cases hv : Index.verify C mangaTagStr i = true
      · rw [show TaggedIndex.verify C (.novel i) = true from hv]
        simp only [Bool.true_eq_false, if_false]
        rw [ih]
        simp [backfilledOf, hv]
      · rw [show TaggedIndex.verify C (.novel i) = false from by
          simpa using hv]
        simp only [if_pos rfl]
        rw [ih]
        simp [backfilledOf, hv]

theorem backfillGo_existing_mem (C : CryptoPrims)
    (acc : ExchangeState × List Hash × List Index) (ret : List TaggedIndex)
    (h : Hash) :
    h ∈ (backfillGo C acc ret).2.1 ↔ h ∈ acc.2.1 ∨
      ∃ i, TaggedIndex.novel i ∈ ret ∧ Index.verify C mangaTagStr i = true ∧
        i.hash = h := by
  induction ret generalizing acc with
  | nil => simp [backfillGo]
  | cons ti rest ih =>
    cases ti with
    | novel i =>
      simp only [backfillGo, backfillOne]
      by_cases hv : Index.verify C mangaTagStr i = true
      · rw [show TaggedIndex.verify C (.novel i) = true from hv]
        simp only [Bool.true_eq_false, if_false]
        rw [ih]
        simp only [mem_insertHash]
        constructor
        · rintro ((ha | rfl) | ⟨i2, hi2, hv2, rfl⟩)
          · exact Or.inl ha
          · exact Or.inr ⟨i, by simp, hv, rfl⟩
          · exact Or.inr ⟨i2, by simp [hi2], hv2, rfl⟩
        · rintro (ha | ⟨i2, hi2, hv2, rfl⟩)
          · exact Or.inl (Or.inl ha)
          · simp only [List.mem_cons] at hi2
            rcases hi2 with heq | hi2
            · obtain rfl : i = i2 := by injection heq with hh; first | exact hh | exact hh.symm
              exact Or.inl (Or.inr rfl)
            · exact Or.inr ⟨i2, hi2, hv2, rfl⟩
      · rw [show TaggedIndex.verify C (.novel i) = false from by simpa using hv]
        simp only [if_pos rfl]
        rw [ih]
        constructor
        · rintro (ha | ⟨i2, hi2, hv2, rfl⟩)
          · exact Or.inl ha
          · exact Or.inr ⟨i2, by simp [hi2], hv2, rfl⟩
        · rintro (ha | ⟨i2, hi2, hv2, rfl⟩)
          · exact Or.inl ha
          · simp only [List.mem_cons] at hi2
            rcases hi2 with heq | hi2
            · obtain rfl : i = i2 := by injection heq with hh; first | exact hh | exact hh.symm
              exact absurd hv2 hv
            · exact Or.inr ⟨i2, hi2, hv2, rfl⟩

theorem backfillGo_contentRepo (C : CryptoPrims)
    (acc : ExchangeState × List Hash × List Index) (ret : List TaggedIndex) :
    (backfillGo C acc ret).1.contentRepo = acc.1.contentRepo := by
  induction ret generalizing acc with
  | nil => simp [backfillGo]
  | cons ti rest ih =>
    cases ti with
    | novel i =>
      simp only [backfillGo, backfillOne]
      by_cases hv : TaggedIndex.verify C (.novel i) = false
      · rw [hv]
        simp only [if_pos rfl]
        exact ih _
      · rw [show TaggedIndex.verify C (.novel i) = true from by
          revert hv; cases TaggedIndex.verify C (.novel i) <;> simp]
        simp only [Bool.true_eq_false, if_false]
        exact ih _

theorem backfillGo_userRepo (C : CryptoPrims)
    (acc : ExchangeState × List Hash × List Index) (ret : List TaggedIndex) :
    (backfillGo C acc ret).1.userRepo = acc.1.userRepo := by
  induction ret generalizing acc with
  | nil => simp [backfillGo]
  | cons ti rest ih =>
    cases ti with
    | novel i =>
      simp only [backfillGo, backfillOne]
      by_cases hv : TaggedIndex.verify C (.novel i) = false
      · rw [hv]
        simp only [if_pos rfl]
        exact ih _
      · rw [show TaggedIndex.verify C (.novel i) = true from by
          revert hv; cases TaggedIndex.verify C (.novel i) <;> simp]
        simp only [Bool.true_eq_false, if_false]
        exact ih _

theorem backfillGo_indexRepo_isSome (C : CryptoPrims)
    (acc : ExchangeState × List Hash × List Index) (ret : List TaggedIndex)
    (k : Hash) :
    (lookupA (backfillGo C acc ret).1.indexRepo k).isSome ↔
      (lookupA acc.1.indexRepo k).isSome ∨
        ∃ i, TaggedIndex.novel i ∈ ret ∧ Index.verify C mangaTagStr i = true ∧
          i.hash = k := by
  induction ret generalizing acc with
  | nil => simp [backfillGo]
  | cons ti rest ih =>
    cases ti with
    | novel i =>
      simp only [backfillGo, backfillOne]
      by_cases hv : Index.verify C mangaTagStr i = true
      · rw [show TaggedIndex.verify C (.novel i) = true from hv]
        simp only [Bool.true_eq_false, if_false]
        rw [ih]
        constructor
        · rintro (hsome | ⟨i2, hi2, hv2, rfl⟩)
          · by_cases hk : k = i.hash
            · exact Or.inr ⟨i, by simp, hv, hk.symm⟩
            · rw [lookupA_upsertA_other _ _ _ _ hk] at hsome
              exact Or.inl hsome
          · exact Or.inr ⟨i2, by simp [hi2], hv2, rfl⟩
        · rintro (hsome | ⟨i2, hi2, hv2, rfl⟩)
          · by_cases hk : k = i.hash
            · subst hk
              exact Or.inl (by simp [lookupA_upsertA_self])
            · exact Or.inl (by rw [lookupA_upsertA_other _ _ _ _ hk]; exact hsome)
          · simp only [List.mem_cons] at hi2
            rcases hi2 with heq | hi2
            · obtain rfl : i = i2 := by injection heq with hh; first | exact hh | exact hh.symm
              exact Or.inl (by simp [lookupA_upsertA_self])
            · exact Or.inr ⟨i2, hi2, hv2, rfl⟩
      · rw [show TaggedIndex.verify C (.novel i) = false from by simpa using hv]
        simp only [if_pos rfl]
        rw [ih]
        constructor
        · rintro (hsome | ⟨i2, hi2, hv2, rfl⟩)
          · exact Or.inl hsome
          · exact Or.inr ⟨i2, by simp [hi2], hv2, rfl⟩
        · rintro (hsome | ⟨i2, hi2, hv2, rfl⟩)
          · exact Or.inl hsome
          · simp only [List.mem_cons] at hi2
            rcases hi2 with heq | hi2
            · obtain rfl : i = i2 := by injection heq with hh; first | exact hh | exact hh.symm
              exact absurd hv2 hv
            · exact Or.inr ⟨i2, hi2, hv2, rfl⟩

/-- The contents the commit loop persists: the sampled contents whose index
hash made it into the existing set and whose own signature verifies, in
sample order. -/
def committedOf (C : CryptoPrims) (existing : List Hash)
    (cs : List TaggedContent) : List Content :=
  cs.filterMap (fun tc =>
    match tc with
    | .manga c =>
      if c.index_hash ∈ existing ∧ Content.verify C c = true then some c
      else none)

theorem commitGo_log (C : CryptoPrims) (existing : List Hash)
    (acc : ExchangeState × List Content) (cs : List TaggedContent) :
    (commitGo C existing acc cs).2 = acc.2 ++ committedOf C existing cs := by
  induction cs generalizing acc with
  | nil => simp [commitGo, committedOf]
  | cons tc rest ih =>
    cases tc with
    | manga c =>
      simp only [commitGo, commitOne, committedOf, List.filterMap_cons]
      by_cases hm : c.index_hash ∈ existing
      · simp only [TaggedContent.index_hash, hm, not_true, if_false]
        by_cases hv : Content.verify C c = true
        · rw [show TaggedContent.verify C (.manga c) = true from hv]
          simp only [Bool.true_eq_false, if_false]
          rw [ih]
          simp [committedOf, hm, hv]
        · rw [show TaggedContent.verify C (.manga c) = false from by simpa using hv]
          simp only [if_pos rfl]
          rw [ih]
          simp [committedOf, hm, hv]
      · simp only [TaggedContent.index_hash, hm, not_false_iff, if_pos trivial]
        rw [ih]
        simp [committedOf, hm]

theorem commitGo_indexRepo (C : CryptoPrims) (existing : List Hash)
    (acc : ExchangeState × List Content) (cs : List TaggedContent) :
    (commitGo C existing acc cs).1.indexRepo = acc.1.indexRepo := by
  induction cs generalizing acc with
  | nil => simp [commitGo]
  | cons tc rest ih =>
    cases tc with
    | manga c =>
      simp only [commitGo, commitOne]
      by_cases hm : c.index_hash ∈ existing
      · simp only [TaggedContent.index_hash, hm, not_true, if_false]
        by_cases hv : Content.verify C c = true
        · rw [show TaggedContent.verify C (.manga c) = true from hv]
          simp only [Bool.true_eq_false, if_false]
          exact ih _
        · rw [show TaggedContent.verify C (.manga c) = false from by simpa using hv]
          simp only [if_pos rfl]
          exact ih _
      · simp only [TaggedContent.index_hash, hm, not_false_iff, if_pos trivial]
        exact ih _

theorem commitGo_userRepo (C : CryptoPrims) (existing : List Hash)
    (acc : ExchangeState × List Content) (cs : List TaggedContent) :
    (commitGo C existing acc cs).1.userRepo = acc.1.userRepo := by
  induction cs generalizing acc with
  | nil => simp [commitGo]
  | cons tc rest ih =>
    cases tc with
    | manga c =>
      simp only [commitGo, commitOne]
      by_cases hm : c.index_hash ∈ existing
      · simp only [TaggedContent.index_hash, hm, not_true, if_false]
        by_cases hv : Content.verify C c = true
        · rw [show TaggedContent.verify C (.manga c) = true from hv]
          simp only [Bool.true_eq_false, if_false]
          exact ih _
        · rw [show TaggedContent.verify C (.manga c) = false from by simpa using hv]
          simp only [if_pos rfl]
          exact ih _
      · simp only [TaggedContent.index_hash, hm, not_false_iff, if_pos trivial]
        exact ih _

theorem mem_committedOf (C : CryptoPrims) (existing : List Hash)
    (cs : List TaggedContent) (c : Content) :
    c ∈ committedOf C existing cs ↔
      TaggedContent.manga c ∈ cs ∧ c.index_hash ∈ existing ∧
        Content.verify C c = true := by
  induction cs with
  | nil => simp [committedOf]
  | cons tc rest ih =>
    cases tc with
    | manga c2 =>
      simp only [committedOf, List.filterMap_cons] at ih ⊢
      by_cases hcond : c2.index_hash ∈ existing ∧ Content.verify C c2 = true
      · rw [if_pos hcond]
        simp only [List.mem_cons]
        constructor
        · rintro (rfl | hc)
          · exact ⟨Or.inl rfl, hcond⟩
          · have := ih.mp hc
            exact ⟨Or.inr this.1, this.2⟩
        · rintro ⟨heq | hmem, hc⟩
          · obtain rfl : c2 = c := by injection heq with hh; first | exact hh | exact hh.symm
            exact Or.inl rfl
          · exact Or.inr (ih.mpr ⟨hmem, hc⟩)
      · rw [if_neg hcond]
        rw [ih]
        simp only [List.mem_cons]
        constructor
        · rintro ⟨hmem, hc⟩
          exact ⟨Or.inr hmem, hc⟩
        · rintro ⟨heq | hmem, hc⟩
          · obtain rfl : c2 = c := by injection heq with hh; first | exact hh | exact hh.symm
            exact absurd hc hcond
          · exact ⟨hmem, hc⟩

theorem mem_missingOf (st : ExchangeState) (cs : List TaggedContent)
    (p : RStr × Hash) :
    p ∈ missingOf st cs ↔
      p.1 = mangaTagStr ∧ ∃ c : Content, TaggedContent.manga c ∈ cs ∧
        c.index_hash = p.2 ∧ lookupA st.indexRepo p.2 = none := by
  induction cs with
  | nil => simp [missingOf]
  | cons tc rest ih =>
    cases tc with
    | manga c2 =>
      simp only [missingOf, List.filterMap_cons] at ih ⊢
      cases hl : lookupA st.indexRepo c2.index_hash with
      | some i =>
        simp only [hl, Option.isSome_some, if_pos trivial]
        rw [ih]
        constructor
        · rintro ⟨ht, c3, hc3, hh, hnone⟩
          exact ⟨ht, c3, by simp [hc3], hh, hnone⟩
        · rintro ⟨ht, c3, hc3, hh, hnone⟩
          simp only [List.mem_cons] at hc3
          rcases hc3 with heq | hc3
          · obtain rfl : c2 = c3 := by injection heq with hh; first | exact hh | exact hh.symm
            rw [hh] at hl
            rw [hl] at hnone
            exact absurd hnone (by simp)
          · exact ⟨ht, c3, hc3, hh, hnone⟩
      | none =>
        simp only [hl, Option.isSome_none, Bool.false_eq_true, if_false,
          List.mem_cons]
        rw [ih]
        constructor
        · rintro (rfl | ⟨ht, c3, hc3, hh, hnone⟩)
          · exact ⟨rfl, c2, Or.inl rfl, rfl, hl⟩
          · exact ⟨ht, c3, Or.inr hc3, hh, hnone⟩
        · rintro ⟨ht, c3, hc3, hh, hnone⟩
          rcases hc3 with heq | hc3
          · obtain rfl : c2 = c3 := by injection heq with hh; first | exact hh | exact hh.symm
            left
            obtain ⟨p1, p2⟩ := p
            simp only at ht hh
            rw [ht, hh]
          · exact Or.inr ⟨ht, c3, hc3, hh, hnone⟩

theorem missingOf_eq_nil (st : ExchangeState) (cs : List TaggedContent) :
    missingOf st cs = [] ↔
      ∀ c : Content, TaggedContent.manga c ∈ cs →
        (lookupA st.indexRepo c.index_hash).isSome := by
  induction cs with
  | nil => simp [missingOf]
  | cons tc rest ih =>
    cases tc with
    | manga c2 =>
      simp only [missingOf, List.filterMap_cons] at ih ⊢
      cases hl : lookupA st.indexRepo c2.index_hash with
      | some i =>
        simp only [hl, Option.isSome_some, if_pos trivial]
        rw [ih]
        constructor
        · intro hall c hc
          simp only [List.mem_cons] at hc
          rcases hc with heq | hc
          · obtain rfl : c2 = c := by injection heq with hh; first | exact hh | exact hh.symm
            simp [hl]
          · exact hall c hc
        · intro hall c hc
          exact hall c (by simp [hc])
      | none =>
        simp only [hl, Option.isSome_none, Bool.false_eq_true, if_false]
        constructor
        · intro hcontra
          exact absurd hcontra (by simp)
        · intro hall
          have := hall c2 (by simp)
          rw [hl] at this
          exact absurd this (by simp)

/-- Destructed form of a successful `routine_exchange` run: the final state
and every trace component, in terms of the loop characterizations. -/
theorem routineExchange_ok (C : CryptoPrims) (peer : PeerModel)
    (host : I2PAddress) (st st2 : ExchangeState) (tr : ExchangeTrace)
    (hrun : routineExchange C peer host st = .ok (st2, tr)) :
    ∃ who, whoInternalM C peer host = .ok who ∧
      (let st1 : ExchangeState :=
        { st with userRepo := upsertA st.userRepo who.pub_key who }
       let diffed := diffStep st1 peer.contents
       let returned := peer.indexResponse diffed.2
       let filled := backfillStep C st1 diffed.1 returned
       let committed := commitStep C filled.1 filled.2.1 peer.contents
       st2 = committed.1 ∧ tr = ⟨diffed.2, diffed.1, filled.2.1, filled.2.2,
         committed.2⟩) := by
  unfold routineExchange at hrun
  cases hwho : whoInternalM C peer host with
  | error e =>
    rw [hwho] at hrun
    exact absurd hrun (by simp)
  | ok who =>
    rw [hwho] at hrun
    simp only [Except.ok.injEq, Prod.mk.injEq] at hrun
    exact ⟨who, rfl, hrun.1.symm, hrun.2.symm⟩

/-- C1: index validity gates content persistence — after a completed
routine_exchange run, every sampled content record whose index hash is not
in the existing set at commit time is never passed to add_content, even if
its own content signature verifies; and the existing set at commit time
holds exactly the hashes that were either already present in the local index
repository for a sampled content, or carried by an index returned with a
valid signature during backfill. -/
theorem C1_index_validity_gates_content
    (C : CryptoPrims) (peer : PeerModel) (host : I2PAddress)
    (st st2 : ExchangeState) (tr : ExchangeTrace)
    (hrun : routineExchange C peer host st = .ok (st2, tr)) :
    (∀ c : Content, TaggedContent.manga c ∈ peer.contents →
        c.index_hash ∉ tr.existingAtCommit → c ∉ tr.addedContents)
    ∧ (∀ h : Hash, h ∈ tr.existingAtCommit ↔
        ((∃ c : Content, TaggedContent.manga c ∈ peer.contents ∧
          c.index_hash = h ∧ (lookupA st.indexRepo h).isSome)
        ∨ (∃ i : Index,
            TaggedIndex.novel i ∈ peer.indexResponse tr.missingIndexes ∧
            Index.verify C mangaTagStr i = true ∧ i.hash = h))) := by
  obtain ⟨who, hwho, hst2, htr⟩ := routineExchange_ok C peer host st st2 tr hrun
  subst hst2
  subst htr
  simp only
  constructor
  · intro c hc hnot hmem
    rw [show (commitStep C (backfillStep C _ _ _).1 (backfillStep C _ _ _).2.1
        peer.contents).2 = committedOf C (backfillStep C _ _ _).2.1 peer.contents
      from commitGo_log _ _ _ _] at hmem
    rw [mem_committedOf] at hmem
    exact hnot hmem.2.1
  · intro h
    rw [show (backfillStep C _ _ _).2.1 = (backfillGo C _ _).2.1 from rfl,
      backfillGo_existing_mem]
    rw [show (diffStep _ peer.contents).1 = (diffGo _ ([], []) peer.contents).1
      from rfl, diffGo_fst_mem]
    simp only [List.not_mem_nil, false_or]

/-! ### Concrete fixtures for witnesses and counterexamples

All of them run the model under `cryptoW`, whose signatures carry the signed
message, so validity is decidable by computation. -/

instance {ε α : Type} [DecidableEq ε] [DecidableEq α] : DecidableEq (Except ε α)
  | .ok a, .ok b =>
    if h : a = b then .isTrue (by rw [h])
    else .isFalse (fun hc => h (by injection hc))
  | .ok _, .error _ => .isFalse (fun hc => Except.noConfusion hc)
  | .error _, .ok _ => .isFalse (fun hc => Except.noConfusion hc)
  | .error e, .error f =>
    if h : e = f then .isTrue (by rw [h])
    else .isFalse (fun hc => h (by injection hc))

/-- A 32-byte public key. -/
def pkW : PublicKey := ⟨List.replicate 32 3⟩

/-- A 64-byte index hash that no fixture repository contains. -/
def hW : Hash := ⟨List.replicate 64 7⟩

/-- The requester's own address used in the Who challenge. -/
def hostW : I2PAddress := ⟨[104]⟩

/-- A peer user record whose signature verifies under `cryptoW`. -/
def userRespW : UserResponse :=
  ⟨pkW, [110], ⟨User.verificationBytes [110] 0 ⟨[97]⟩⟩, 0, ⟨[97]⟩⟩

/-- A Who payload whose freshness signature over (timestamp, host address)
verifies under `cryptoW`. -/
def whoW : WhoResponseW := ⟨userRespW, 5, ⟨leBytes 8 5 ++ strBytes hostW.inner⟩⟩

/-- The peer user as the exchange upserts it (trust set to Untrusted). -/
def userW : User :=
  ⟨pkW, [110], 0, ⟨User.verificationBytes [110] 0 ⟨[97]⟩⟩, ⟨[97]⟩, .untrusted⟩

/-- A sampled content record referencing `hW`, validly signed under
`cryptoW`. -/
def contentW : Content := ⟨⟨Content.idBytes hW 0 ⟨[]⟩ []⟩, pkW, hW, 0, ⟨[]⟩, []⟩

/-- The same record with a different timestamp (still validly signed),
sharing `hW`. -/
def contentW2 : Content :=
  ⟨⟨Content.idBytes hW 1 ⟨[]⟩ []⟩, pkW, hW, 1, ⟨[]⟩, []⟩

/-- An index over `hW` whose signature does not verify under `cryptoW`. -/
def badIdxW : Index := ⟨hW, [116], 0, pkW, ⟨[9]⟩⟩

/-- A hostile peer: one validly signed sampled content whose backing index
is returned with an invalid signature. -/
def peerW : PeerModel := ⟨whoW, [.manga contentW], fun _ => [.novel badIdxW]⟩

/-- Empty local repositories. -/
def emptyStateW : ExchangeState := ⟨[], [], []⟩

/-- The state after exchanging with `peerW` from empty repositories: only
the peer user was upserted. -/
def stAfterW : ExchangeState := ⟨[], [], [(pkW, userW)]⟩

/-- The trace of exchanging with `peerW`: the index was requested, nothing
was persisted. -/
def trW : ExchangeTrace := ⟨[(mangaTagStr, hW)], [], [], [], []⟩

theorem C1_index_validity_gates_content_witness :
    Content.verify cryptoW contentW = true ∧ contentW ∉ trW.addedContents :=
  ⟨by decide,
    (C1_index_validity_gates_content cryptoW peerW hostW emptyStateW stAfterW
      trW (by decide)).1 contentW (by decide) (by decide)⟩

/-- A peer offering two sampled contents that share the missing index hash
`hW`. -/
def peerDupW : PeerModel :=
  ⟨whoW, [.manga contentW, .manga contentW2], fun _ => []⟩

/-- The trace of exchanging with `peerDupW`: the shared missing hash is
requested twice. -/
def trDupW : ExchangeTrace :=
  ⟨[(mangaTagStr, hW), (mangaTagStr, hW)], [], [], [], []⟩

/-- C7 counterexample: a completed routine_exchange run whose missing_indexes
list contains the same (tag, hash) pair twice — the diff step deduplicates
nothing — refuting the claim that the GetIndexes request list has no
repeated pair. -/
theorem C7_missing_indexes_duplicated_counterexample :
    routineExchange cryptoW peerDupW hostW emptyStateW = .ok (stAfterW, trDupW)
    ∧ trDupW.missingIndexes = [(mangaTagStr, hW), (mangaTagStr, hW)]
    ∧ ¬ trDupW.missingIndexes.Nodup := by
  refine ⟨by decide, by decide, by decide⟩

/-- C7 amended: the diff step of routine_exchange partitions the sampled
content records between a deduplicated existing_indexes set (holding exactly
the sampled hashes present in the local index repository) and the
missing_indexes request list — but missing_indexes is not deduplicated: it
carries one (tag, hash) entry per sampled content record whose index is
missing, in sample order, so it repeats a pair whenever several sampled
records share the same missing index hash. -/
theorem C7_diff_partition_missing_not_deduplicated
    (C : CryptoPrims) (peer : PeerModel) (host : I2PAddress)
    (st st2 : ExchangeState) (tr : ExchangeTrace)
    (hrun : routineExchange C peer host st = .ok (st2, tr)) :
    tr.missingIndexes = missingOf st peer.contents
    ∧ tr.existingAfterDiff.Nodup
    ∧ (∀ h : Hash, h ∈ tr.existingAfterDiff ↔
        ∃ c : Content, TaggedContent.manga c ∈ peer.contents ∧
          c.index_hash = h ∧ (lookupA st.indexRepo h).isSome)
    ∧ (∀ c : Content, TaggedContent.manga c ∈ peer.contents →
        (lookupA st.indexRepo c.index_hash).isSome ∨
          (mangaTagStr, c.index_hash) ∈ tr.missingIndexes) := by
  obtain ⟨who, hwho, hst2, htr⟩ := routineExchange_ok C peer host st st2 tr hrun
  subst hst2
  subst htr
  simp only
  refine ⟨?_, ?_, ?_, ?_⟩
  · rw [show (diffStep _ peer.contents).2 = (diffGo _ ([], []) peer.contents).2
      from rfl, diffGo_snd]
    simp only [List.nil_append]
    rfl
  · exact diffGo_fst_nodup _ _ _ (by simp)
  · intro h
    rw [show (diffStep _ peer.contents).1 = (diffGo _ ([], []) peer.contents).1
      from rfl, diffGo_fst_mem]
    simp only [List.not_mem_nil, false_or]
  · intro c hc
    by_cases hl : (lookupA st.indexRepo c.index_hash).isSome
    · exact Or.inl hl
    · refine Or.inr ?_
      rw [show (diffStep _ peer.contents).2 = (diffGo _ ([], []) peer.contents).2
        from rfl, diffGo_snd]
      simp only [List.nil_append]
      rw [mem_missingOf]
      refine ⟨rfl, c, hc, rfl, ?_⟩
      cases hx : lookupA st.indexRepo c.index_hash with
      | none => rfl
      | some i => rw [hx] at hl; exact absurd (by simp) hl

theorem C7_diff_partition_witness :
    trDupW.missingIndexes = missingOf emptyStateW peerDupW.contents :=
  (C7_diff_partition_missing_not_deduplicated cryptoW peerDupW hostW
    emptyStateW stAfterW trDupW (by decide)).1

/-- C5 counterexample: against an unchanged hostile peer whose only sampled
content references an index that never verifies, the second
routine_exchange run produces the same nonempty missing_indexes list as the
first (the never-validated hash is requested again), refuting the claim
that the second run's missing_indexes set is empty. -/
theorem C5_second_run_missing_counterexample :
    routineExchange cryptoW peerW hostW emptyStateW = .ok (stAfterW, trW)
    ∧ routineExchange cryptoW peerW hostW stAfterW = .ok (stAfterW, trW)
    ∧ trW.missingIndexes ≠ [] := by
  refine ⟨by decide, by decide, by decide⟩

/-- C3: the hash of an Index built by Index::new or Index::new_signed is the
digest (SHA-512 at the crypto boundary) of the tag bytes, then the
sanitized-title bytes, then the release date in little-endian; it does not
depend on source or signature, so two indexes agreeing on tag, sanitized
title and release date share the hash. -/
theorem C3_index_hash_of_canonical_bytes (C : CryptoPrims) (tag title : RStr)
    (release_date : Nat) (source : PublicKey) (signature : Signature)
    (priv_key : PrivateKey) :
    (Index.new C tag title release_date source signature).hash
      = C.digest (strBytes tag ++ strBytes (sanitize title)
          ++ leBytes 4 release_date)
    ∧ (Index.newSigned C tag title release_date priv_key).hash
      = C.digest (strBytes tag ++ strBytes (sanitize title)
          ++ leBytes 4 release_date)
    ∧ ∀ (title2 : RStr) (source2 : PublicKey) (signature2 : Signature),
        sanitize title2 = sanitize title →
        (Index.new C tag title2 release_date source2 signature2).hash
          = (Index.new C tag title release_date source signature).hash := by
  refine ⟨rfl, rfl, ?_⟩
  intro title2 source2 signature2 hsan
  simp [Index.new, Index.idBytes, hsan]

theorem C3_index_hash_of_canonical_bytes_witness :
    (Index.new cryptoW mangaTagStr [77] 2024 ⟨[1]⟩ ⟨[2]⟩).hash
      = (Index.new cryptoW mangaTagStr [109] 2024 ⟨[3]⟩ ⟨[4]⟩).hash :=
  (C3_index_hash_of_canonical_bytes cryptoW mangaTagStr [109] 2024 ⟨[3]⟩ ⟨[4]⟩
    ⟨[5]⟩).2.2 [77] ⟨[1]⟩ ⟨[2]⟩ (by decide)

/-- C10: Index::verify reads only title, release_date, source and signature —
two indexes agreeing on those four fields verify identically whatever their
stored hash; Index::decode accepts any 64-byte hash from the wire without
recomputation; and so a verifying index can carry a hash that is not the
digest of its own canonical bytes. -/
theorem C10_verify_ignores_stored_hash (C : CryptoPrims) (tag : RStr) :
    (∀ i1 i2 : Index, i1.title = i2.title →
      i1.release_date = i2.release_date → i1.source = i2.source →
      i1.signature = i2.signature →
      Index.verify C tag i1 = Index.verify C tag i2)
    ∧ (∀ (i : Index) (h2 : Hash), i.WF → h2.bytes.length = 64 →
        ∀ bs r, encodeIndex { i with hash := h2 } = .ok bs →
          decodeIndex (bs ++ r) = .ok ({ i with hash := h2 }, r))
    ∧ (∀ (i : Index) (h2 : Hash),
        Index.verify C tag i = true →
        h2 ≠ C.digest (Index.idBytes tag i.title i.release_date) →
        Index.verify C tag { i with hash := h2 } = true ∧
          ({ i with hash := h2 } : Index).hash ≠
            C.digest (Index.idBytes tag ({ i with hash := h2 } : Index).title
              ({ i with hash := h2 } : Index).release_date)) := by
  refine ⟨?_, ?_, ?_⟩
  · intro i1 i2 ht hr hs hg
    unfold Index.verify
    rw [ht, hr, hs, hg]
  · intro i h2 hwf hlen bs r he
    obtain ⟨hw1, hw2, hw3, hw4, hw5⟩ := hwf
    exact rt_index { i with hash := h2 } ⟨hlen, hw2, hw3, hw4, hw5⟩ bs r he
  · intro i h2 hv hne
    exact ⟨hv, hne⟩

/-- A well-formed index fixture for the C10 witness (64-byte hash and
signature, 32-byte source). -/
def idxWfW : Index :=
  ⟨⟨List.replicate 64 1⟩, [97], 7, ⟨List.replicate 32 2⟩, ⟨List.replicate 64 3⟩⟩

/-- An index fixture that verifies under `cryptoW` (its signature carries
its canonical bytes). -/
def idxValidW : Index :=
  ⟨hW, [97], 7, pkW, ⟨Index.idBytes mangaTagStr [97] 7⟩⟩

/-- The raw wire bytes of `idxWfW` with hash replaced by 64 nines. -/
def idxWfBytesW : List Nat :=
  (encodeIndex { idxWfW with hash := ⟨List.replicate 64 9⟩ }).toOption.getD []

set_option maxRecDepth 40000 in
theorem C10_verify_ignores_stored_hash_witness :
    decodeIndex (idxWfBytesW ++ []) =
      .ok ({ idxWfW with hash := ⟨List.replicate 64 9⟩ }, [])
    ∧ Index.verify cryptoW mangaTagStr { idxValidW with hash := ⟨[8]⟩ } = true
    ∧ ({ idxValidW with hash := ⟨[8]⟩ } : Index).hash ≠
        cryptoW.digest (Index.idBytes mangaTagStr [97] 7) :=
  ⟨(C10_verify_ignores_stored_hash cryptoW mangaTagStr).2.1 idxWfW
      ⟨List.replicate 64 9⟩ (by decide) (by decide) idxWfBytesW [] (by decide),
    ((C10_verify_ignores_stored_hash cryptoW mangaTagStr).2.2 idxValidW ⟨[8]⟩
      (by decide) (by decide)).1,
    ((C10_verify_ignores_stored_hash cryptoW mangaTagStr).2.2 idxValidW ⟨[8]⟩
      (by decide) (by decide)).2⟩

/-- C8 counterexample: the Greek letter alpha is alphanumeric (Unicode
Alphabetic), yet sanitization strips it — the filter keeps only ASCII
alphanumerics, so it is not the case that every alphanumeric character is
retained. -/
theorem C8_sanitize_strips_nonascii_counterexample :
    isUnicodeAlphanumeric 0x3B1 = true ∧ sanitize [0x3B1] = []
    ∧ (0x3B1 : Nat) ∉ sanitize [0x3B1] := by
  refine ⟨by decide, by decide, by decide⟩

/-- C8 amended: sanitization lower-cases, Unicode-normalizes, and keeps
exactly the ASCII alphanumerics — non-ASCII alphanumeric characters are
stripped too.  Titles with equal sanitizations produce equal index hashes;
in particular titles differing only in ASCII case, decomposable accents, or
non-alphanumeric characters collide. -/
theorem C8_sanitize_keeps_ascii_alphanumerics :
    (∀ (s : RStr), ∀ c ∈ sanitize s, isAsciiAlphanumeric c = true)
    ∧ (∀ (C : CryptoPrims) (tag t1 t2 : RStr) (d : Nat)
        (src1 src2 : PublicKey) (sig1 sig2 : Signature),
        sanitize t1 = sanitize t2 →
        (Index.new C tag t1 d src1 sig1).hash
          = (Index.new C tag t2 d src2 sig2).hash)
    ∧ sanitize [77, 0xFD, 45, 84, 0xED, 116, 108, 101, 33]
        = [109, 121, 116, 105, 116, 108, 101]
    ∧ sanitize [109, 121, 116, 105, 116, 108, 101]
        = [109, 121, 116, 105, 116, 108, 101] := by
  refine ⟨?_, ?_, by decide, by decide⟩
  · intro s c hc
    exact List.of_mem_filter hc
  · intro C tag t1 t2 d src1 src2 sig1 sig2 hsan
    simp [Index.new, Index.idBytes, hsan]

theorem C8_sanitize_keeps_ascii_alphanumerics_witness :
    (Index.new cryptoW mangaTagStr [77, 0xFD, 45, 84, 0xED, 116, 108, 101, 33]
        2024 ⟨[1]⟩ ⟨[2]⟩).hash
      = (Index.new cryptoW mangaTagStr [109, 121, 116, 105, 116, 108, 101]
          2024 ⟨[3]⟩ ⟨[4]⟩).hash :=
  C8_sanitize_keeps_ascii_alphanumerics.2.1 cryptoW mangaTagStr
    [77, 0xFD, 45, 84, 0xED, 116, 108, 101, 33]
    [109, 121, 116, 105, 116, 108, 101] 2024 ⟨[1]⟩ ⟨[3]⟩ ⟨[2]⟩ ⟨[4]⟩ (by decide)

/-- C9 counterexample: a connection stream carrying a valid version byte
followed by an invalid category byte makes the dispatch panic (the
macro-generated handler unwraps the decode), not log-and-terminate. -/
theorem C9_category_decode_panics_counterexample :
    serverLoopStep [1, 7] = .panicked
    ∧ serverLoopStep [1, 7] ≠ .loggedTermination := by
  refine ⟨by decide, by decide⟩

/-- C9 amended: the version byte behaves as specified — unexpected EOF ends
the loop silently and every other version-byte decode error logs and
terminates — but a decode error of the category byte or of the command byte
panics the connection task (the generated handler calls unwrap) instead of
logging and terminating. -/
theorem C9_dispatch_error_handling :
    (∀ s : Stream, decodeVersion s = .error (.ioError .unexpectedEof) →
      serverLoopStep s = .silentTermination)
    ∧ (∀ (s : Stream) (e : DecodeError), decodeVersion s = .error e →
        e ≠ .ioError .unexpectedEof → serverLoopStep s = .loggedTermination)
    ∧ (∀ (s s1 : Stream) (e : DecodeError),
        decodeVersion s = .ok (.v1, s1) → decodeCategoryV1 s1 = .error e →
        serverLoopStep s = .panicked)
    ∧ (∀ (s s1 s2 : Stream) (e : DecodeError),
        decodeVersion s = .ok (.v1, s1) →
        decodeCategoryV1 s1 = .ok (.users, s2) →
        decodeUsersCommandV1 s2 = .error e → serverLoopStep s = .panicked)
    ∧ (∀ (s s1 s2 : Stream) (e : DecodeError),
        decodeVersion s = .ok (.v1, s1) →
        decodeCategoryV1 s1 = .ok (.index, s2) →
        decodeIndexCommandV1 s2 = .error e → serverLoopStep s = .panicked) := by
  refine ⟨?_, ?_, ?_, ?_, ?_⟩
  · intro s h
    simp [serverLoopStep, h]
  · intro s e h hne
    cases e with
    | ioError kind =>
      cases kind with
      | unexpectedEof => exact absurd rfl hne
      | otherKind => simp [serverLoopStep, h]
    | invalidEnumVariant v n => simp [serverLoopStep, h]
    | fromUtf8Error => simp [serverLoopStep, h]
  · intro s s1 e h1 h2
    simp [serverLoopStep, h1, v1Handle, h2]
  · intro s s1 s2 e h1 h2 h3
    simp [serverLoopStep, h1, v1Handle, h2, h3]
  · intro s s1 s2 e h1 h2 h3
    simp [serverLoopStep, h1, v1Handle, h2, h3]

theorem C9_dispatch_error_handling_witness :
    serverLoopStep [] = .silentTermination
    ∧ serverLoopStep [200] = .loggedTermination
    ∧ serverLoopStep [1, 7] = .panicked
    ∧ serverLoopStep [1, 0, 9] = .panicked
    ∧ serverLoopStep [1, 1, 9] = .panicked :=
  ⟨C9_dispatch_error_handling.1 [] (by decide),
    C9_dispatch_error_handling.2.1 [200]
      (.invalidEnumVariant (natToDecStr 200) "AuroraProtocolVersion")
      (by decide) (by decide),
    C9_dispatch_error_handling.2.2.1 [1, 7] [7]
      (.invalidEnumVariant (natToDecStr 7) "AuroraProtocolCommandCategoryV1")
      (by decide) (by decide),
    C9_dispatch_error_handling.2.2.2.1 [1, 0, 9] [0, 9] [9]
      (.invalidEnumVariant (natToDecStr 9) "UsersCommandV1")
      (by decide) (by decide) (by decide),
    C9_dispatch_error_handling.2.2.2.2 [1, 1, 9] [1, 9] [9]
      (.invalidEnumVariant (natToDecStr 9) "IndexCommandV1")
      (by decide) (by decide) (by decide)⟩

theorem strBytes_replicate_a (n : Nat) :
    strBytes (List.replicate n 97) = List.replicate n 97 := by
  induction n with
  | zero => rfl
  | succ k ih =>
    simp only [List.replicate_succ, strBytes, List.flatMap_cons]
    simp only [strBytes] at ih
    rw [ih, show utf8EncodeChar 97 = [97] from by norm_num [utf8EncodeChar]]
    rfl

/-- A string of 65536 ASCII bytes, one over the u16 length limit. -/
def longStrW : RStr := List.replicate 65536 97

theorem encodeEach_ok_of_all {α : Type} (enc : α → EncodeResult) (v : List α)
    (h : ∀ x ∈ v, ∃ bs, enc x = .ok bs) :
    ∃ bs, encodeEach enc v = .ok bs := by
  induction v with
  | nil => exact ⟨[], rfl⟩
  | cons x xs ih =>
    obtain ⟨b1, hb1⟩ := h x (by simp)
    obtain ⟨b2, hb2⟩ := ih (fun y hy => h y (by simp [hy]))
    exact ⟨b1 ++ b2, by simp [encodeEach, eseq, hb1, hb2]⟩

/-- C6 counterexample: a vector of a single oversized string stays within
the 65535 element-count limit, yet encoding it returns TooManyElements
(propagated from the element), refuting the claim that the error is raised
exactly when the vector's element count exceeds 65535. -/
theorem C6_vec_element_error_counterexample :
    encodeVec encodeString [longStrW] = .error (.tooManyElements 65535 65536)
    ∧ ([longStrW] : List RStr).length = 1 := by
  have hlen : (strBytes longStrW).length = 65536 := by
    rw [show strBytes longStrW = List.replicate 65536 97 from
      strBytes_replicate_a 65536, List.length_replicate]
  constructor
  · have hs : encodeString longStrW = .error (.tooManyElements 65535 65536) := by
      simp only [encodeString, hlen]
      rw [if_pos (by norm_num)]
    simp only [encodeVec, List.length_cons, List.length_nil]
    rw [if_neg (by norm_num),
      show encodeEach encodeString [longStrW]
        = eseq (encodeString longStrW) (encodeEach encodeString []) from rfl,
      hs]
    rfl
  · rfl

/-- C6 amended: the String encoder raises TooManyElements with allowed 65535
and actual the byte length exactly when the byte length exceeds 65535, and
otherwise writes the 2-byte big-endian length followed by the UTF-8 bytes;
the Vec encoder's own count check raises TooManyElements with actual the
element count exactly when the count exceeds 65535, and a shorter vector
encodes as the 2-byte big-endian count followed by the elements provided
every element encodes successfully — but a shorter vector can still fail
with TooManyElements propagated from an element. -/
theorem C6_too_many_elements_boundary :
    (∀ s : RStr,
      ((strBytes s).length > 65535 →
        encodeString s = .error (.tooManyElements 65535 (strBytes s).length))
      ∧ ((strBytes s).length ≤ 65535 →
        encodeString s = .ok (beBytes 2 (strBytes s).length ++ strBytes s)))
    ∧ (∀ (α : Type) (enc : α → EncodeResult) (v : List α),
        (v.length > 65535 →
          encodeVec enc v = .error (.tooManyElements 65535 v.length))
        ∧ (v.length ≤ 65535 → (∀ x ∈ v, ∃ bs, enc x = .ok bs) →
          ∃ payload, encodeEach enc v = .ok payload ∧
            encodeVec enc v = .ok (beBytes 2 v.length ++ payload))) := by
  constructor
  · intro s
    constructor
    · intro h
      unfold encodeString
      rw [if_pos (by omega)]
    · intro h
      unfold encodeString
      rw [if_neg (by omega)]
  · intro α enc v
    constructor
    · intro h
      unfold encodeVec
      rw [if_pos (by omega)]
    · intro h hall
      obtain ⟨payload, hp⟩ := encodeEach_ok_of_all enc v hall
      refine ⟨payload, hp, ?_⟩
      unfold encodeVec
      rw [if_neg (by omega)]
      simp [eseq, hp]

theorem C6_too_many_elements_boundary_witness :
    encodeString [104, 105] = .ok [0, 2, 104, 105]
    ∧ encodeVec encodeU16 [1, 2, 3] = .ok [0, 3, 0, 1, 0, 2, 0, 3] := by
  constructor
  · have h := (C6_too_many_elements_boundary.1 [104, 105]).2 (by decide)
    rw [h]
    decide
  · obtain ⟨payload, hp, he⟩ :=
      (C6_too_many_elements_boundary.2 Nat encodeU16 [1, 2, 3]).2 (by decide)
      (fun x hx => ⟨beBytes 2 x, rfl⟩)
    rw [he]
    have : payload = [0, 1, 0, 2, 0, 3] := by
      rw [show encodeEach encodeU16 [1, 2, 3] = .ok [0, 1, 0, 2, 0, 3] from
        by decide] at hp
      injection hp with hh
      exact hh.symm
    rw [this]
    decide

theorem strBytes_inj (a b : RStr) (ha : StrWF a) (hb : StrWF b)
    (h : strBytes a = strBytes b) : a = b := by
  have h1 := utf8Decode_strBytes a ha
  rw [h, utf8Decode_strBytes b hb] at h1
  injection h1 with hh
  exact hh.symm

/-- C4: every signed entity built by new_signed verifies under the derived
public key embedded as source (given the crypto boundary's soundness), and
tampering any signed byte — any change to the canonical signed byte string
of the record, including the per-field changes to release_date, timestamp,
index_hash, magnet link, name or address spelled out below — makes verify
return false (given the scheme's message binding). -/
theorem C4_new_signed_verifies_and_tamper_fails (C : CryptoPrims)
    (hs : SigSound C) (hb : SigBinding C) :
    (∀ (tag title : RStr) (rd : Nat) (sk : PrivateKey),
      Index.verify C tag (Index.newSigned C tag title rd sk) = true
      ∧ (Index.newSigned C tag title rd sk).source = C.publicKeyOf sk)
    ∧ (∀ (ih : Hash) (ts : Nat) (ml : Magnet) (es : List ContentEntry)
        (sk : PrivateKey),
      Content.verify C (Content.newSigned C (C.publicKeyOf sk) ih ts ml es sk)
        = true)
    ∧ (∀ (name : RStr) (ts : Nat) (sk : PrivateKey) (addr : I2PAddress),
      User.verify C (User.newSigned C name ts sk addr) = true
      ∧ (User.newSigned C name ts sk addr).pub_key = C.publicKeyOf sk)
    ∧ (∀ (tag title : RStr) (rd : Nat) (sk : PrivateKey) (i2 : Index),
      i2.source = (Index.newSigned C tag title rd sk).source →
      i2.signature = (Index.newSigned C tag title rd sk).signature →
      Index.idBytes tag i2.title i2.release_date ≠ Index.idBytes tag title rd →
      Index.verify C tag i2 = false)
    ∧ (∀ (ih : Hash) (ts : Nat) (ml : Magnet) (es : List ContentEntry)
        (sk : PrivateKey) (c2 : Content),
      c2.source = C.publicKeyOf sk →
      c2.signature
        = (Content.newSigned C (C.publicKeyOf sk) ih ts ml es sk).signature →
      Content.idBytes c2.index_hash c2.timestamp c2.magnet_link c2.entries
        ≠ Content.idBytes ih ts ml es →
      Content.verify C c2 = false)
    ∧ (∀ (name : RStr) (ts : Nat) (sk : PrivateKey) (addr : I2PAddress)
        (u2 : User),
      u2.pub_key = (User.newSigned C name ts sk addr).pub_key →
      u2.signature = (User.newSigned C name ts sk addr).signature →
      User.verificationBytes u2.name u2.timestamp u2.address
        ≠ User.verificationBytes name ts addr →
      User.verify C u2 = false)
    ∧ (∀ (tag t : RStr) (rd rd2 : Nat), rd < 4294967296 → rd2 < 4294967296 →
        rd2 ≠ rd → Index.idBytes tag t rd2 ≠ Index.idBytes tag t rd)
    ∧ (∀ (ih ih2 : Hash) (ts ts2 : Nat) (ml : Magnet)
        (es : List ContentEntry),
        ih.bytes.length = 64 → ih2.bytes.length = 64 →
        ts < 18446744073709551616 → ts2 < 18446744073709551616 →
        (ih2 ≠ ih ∨ ts2 ≠ ts) →
        Content.idBytes ih2 ts2 ml es ≠ Content.idBytes ih ts ml es)
    ∧ (∀ (ih : Hash) (ts : Nat) (ml ml2 : Magnet) (es : List ContentEntry),
        StrWF ml.inner → StrWF ml2.inner → ml2 ≠ ml →
        Content.idBytes ih ts ml2 es ≠ Content.idBytes ih ts ml es)
    ∧ (∀ (name name2 : RStr) (ts ts2 : Nat) (addr addr2 : I2PAddress),
        StrWF name → StrWF name2 → StrWF addr.inner → StrWF addr2.inner →
        ts < 18446744073709551616 → ts2 < 18446744073709551616 →
        (name2 ≠ name ∧ ts2 = ts ∧ addr2 = addr) ∨
          (name2 = name ∧ ts2 ≠ ts ∧ addr2 = addr) ∨
          (name2 = name ∧ ts2 = ts ∧ addr2 ≠ addr) →
        User.verificationBytes name2 ts2 addr2
          ≠ User.verificationBytes name ts addr) := by
  have hver : ∀ (pk : PublicKey) (sk : PrivateKey) (m m2 : List Nat),
      m2 ≠ m → C.verify pk m2 (C.sign sk m) = false := by
    intro pk sk m m2 hne
    cases h : C.verify pk m2 (C.sign sk m) with
    | false => rfl
    | true => exact absurd (hb sk pk m m2 h) hne
  refine ⟨?_, ?_, ?_, ?_, ?_, ?_, ?_, ?_, ?_, ?_⟩
  · intro tag title rd sk
    exact ⟨hs sk (Index.idBytes tag title rd), rfl⟩
  · intro ih ts ml es sk
    exact hs sk (Content.idBytes ih ts ml es)
  · intro name ts sk addr
    exact ⟨hs sk (User.verificationBytes name ts addr), rfl⟩
  · intro tag title rd sk i2 hsrc hsig hne
    unfold Index.verify
    rw [hsrc, hsig]
    exact hver _ sk _ _ hne
  · intro ih ts ml es sk c2 hsrc hsig hne
    unfold Content.verify
    rw [hsrc, hsig]
    exact hver _ sk _ _ hne
  · intro name ts sk addr u2 hsrc hsig hne
    unfold User.verify
    rw [hsrc, hsig]
    exact hver _ sk _ _ hne
  · intro tag t rd rd2 h1 h2 hne heq
    unfold Index.idBytes at heq
    have h3 := List.append_cancel_left heq
    exact hne (leBytes_inj 4 rd2 rd (by norm_num; omega) (by norm_num; omega) h3)
  · intro ih ih2 ts ts2 ml es hl1 hl2 ht1 ht2 hor heq
    unfold Content.idBytes at heq
    have h1 := List.append_cancel_right heq
    have h2 := List.append_cancel_right h1
    have h3 := List.append_inj h2 (by rw [hl1, hl2])
    rcases hor with hne | hne
    · refine hne ?_
      cases ih
      cases ih2
      simp_all
    · exact hne (beBytes_inj 8 ts2 ts (by norm_num; omega) (by norm_num; omega)
        h3.2)
  · intro ih ts ml ml2 es hw1 hw2 hne heq
    unfold Content.idBytes at heq
    have h1 := List.append_cancel_right heq
    have h2 := List.append_cancel_left h1
    refine hne ?_
    cases ml
    cases ml2
    exact congrArg Magnet.mk (strBytes_inj _ _ hw2 hw1 h2)
  · intro name name2 ts ts2 addr addr2 hw1 hw2 hw3 hw4 ht1 ht2 hcase heq
    unfold User.verificationBytes at heq
    rcases hcase with ⟨hne, rfl, rfl⟩ | ⟨rfl, hne, rfl⟩ | ⟨rfl, rfl, hne⟩
    · have h1 := List.append_cancel_right heq
      have h2 := List.append_cancel_right h1
      exact hne (strBytes_inj _ _ hw2 hw1 h2)
    · have h1 := List.append_cancel_right heq
      have h2 := List.append_cancel_left h1
      exact hne (leBytes_inj 8 ts2 ts (by norm_num; omega) (by norm_num; omega)
        h2)
    · have h1 := List.append_cancel_left heq
      refine hne ?_
      cases addr
      cases addr2
      exact congrArg I2PAddress.mk (strBytes_inj _ _ hw4 hw3 h1)

theorem C4_new_signed_verifies_and_tamper_fails_witness :
    Index.verify cryptoW mangaTagStr
      (Index.newSigned cryptoW mangaTagStr [97] 7 ⟨[5]⟩) = true
    ∧ Index.verify cryptoW mangaTagStr
        { Index.newSigned cryptoW mangaTagStr [97] 7 ⟨[5]⟩ with
          release_date := 8 } = false
    ∧ User.verify cryptoW (User.newSigned cryptoW [110] 3 ⟨[5]⟩ ⟨[97]⟩) = true
    ∧ User.verify cryptoW
        { User.newSigned cryptoW [110] 3 ⟨[5]⟩ ⟨[97]⟩ with timestamp := 4 }
      = false :=
  ⟨(C4_new_signed_verifies_and_tamper_fails cryptoW cryptoW_sound
      cryptoW_binding).1 mangaTagStr [97] 7 ⟨[5]⟩ |>.1,
    (C4_new_signed_verifies_and_tamper_fails cryptoW cryptoW_sound
      cryptoW_binding).2.2.2.1 mangaTagStr [97] 7 ⟨[5]⟩
      { Index.newSigned cryptoW mangaTagStr [97] 7 ⟨[5]⟩ with
        release_date := 8 } rfl rfl (by decide),
    (C4_new_signed_verifies_and_tamper_fails cryptoW cryptoW_sound
      cryptoW_binding).2.2.1 [110] 3 ⟨[5]⟩ ⟨[97]⟩ |>.1,
    (C4_new_signed_verifies_and_tamper_fails cryptoW cryptoW_sound
      cryptoW_binding).2.2.2.2.2.1 [110] 3 ⟨[5]⟩ ⟨[97]⟩
      { User.newSigned cryptoW [110] 3 ⟨[5]⟩ ⟨[97]⟩ with timestamp := 4 }
      rfl rfl (by decide)⟩

/-- A content entry with nonzero local progress (an f32 bit pattern). -/
def entryProgW : ContentEntry := ⟨[97], 0, [98], ⟨.english⟩, 1⟩

/-- The same entry as the decoder reconstructs it: progress 0. -/
def entryProgZeroW : ContentEntry := ⟨[97], 0, [98], ⟨.english⟩, 0⟩

/-- A wire-well-formed content holding `entryProgW`. -/
def contentProgW : Content :=
  ⟨⟨List.replicate 64 4⟩, ⟨List.replicate 32 5⟩, ⟨List.replicate 64 6⟩, 2,
    ⟨[109]⟩, [entryProgW]⟩

/-- The same content with the entry's progress zeroed. -/
def contentProgZeroW : Content :=
  ⟨⟨List.replicate 64 4⟩, ⟨List.replicate 32 5⟩, ⟨List.replicate 64 6⟩, 2,
    ⟨[109]⟩, [entryProgZeroW]⟩

/-- A derived ExchangeContentResponse wire value containing `contentProgW`. -/
def respProgW : ExchangeContentResponse := ⟨[.manga contentProgW]⟩

/-- What decoding its encoding yields instead. -/
def respProgZeroW : ExchangeContentResponse := ⟨[.manga contentProgZeroW]⟩

/-- The bytes `respProgW` encodes to. -/
def respProgBytesW : List Nat :=
  (encodeExchangeContentResponse respProgW).toOption.getD []

set_option maxRecDepth 100000 in
/-- C2 counterexample: a derived wire value (an ExchangeContentResponse
holding a content entry with nonzero local progress) encodes successfully,
but decoding the produced bytes returns a different value — the local-only
progress field decodes as 0 — refuting decode(encode(x)) == x as stated. -/
theorem C2_roundtrip_counterexample :
    encodeExchangeContentResponse respProgW = .ok respProgBytesW
    ∧ decodeExchangeContentResponse respProgBytesW = .ok (respProgZeroW, [])
    ∧ respProgZeroW ≠ respProgW := by
  refine ⟨by decide, by decide, by decide⟩

theorem decodeContentEntry_progress (s : Stream) (e : ContentEntry)
    (r : Stream) (h : decodeContentEntry s = .ok (e, r)) : e.progress = 0 := by
  unfold decodeContentEntry dseq at h
  cases h1 : decodeString s with
  | error e1 => rw [h1] at h; exact Except.noConfusion h
  | ok v1 =>
    obtain ⟨t, s1⟩ := v1
    rw [h1] at h
    simp only [] at h
    cases h2 : decodeF32 s1 with
    | error e2 => rw [h2] at h; exact Except.noConfusion h
    | ok v2 =>
      obtain ⟨en, s2⟩ := v2
      rw [h2] at h
      simp only [] at h
      cases h3 : decodeString s2 with
      | error e3 => rw [h3] at h; exact Except.noConfusion h
      | ok v3 =>
        obtain ⟨pa, s3⟩ := v3
        rw [h3] at h
        simp only [] at h
        cases h4 : decodeMangaChapter s3 with
        | error e4 => rw [h4] at h; exact Except.noConfusion h
        | ok v4 =>
          obtain ⟨mc, s4⟩ := v4
          rw [h4] at h
          simp only [] at h
          injection h with hh
          injection hh with hl hr
          rw [← hl]

/-- C2 amended: decode(encode(x)) == x holds for every primitive and
composite wire type — unit, u16, u32, u64, i32, f32 (as bit patterns), bool,
String, pairs, Option, Result, Vec, fixed-size byte arrays, and the derived
and manual struct/enum wire types — except that the local-only
`ContentEntry.progress` field is never written and always decodes as 0, so
for any value containing content entries the round trip succeeds and
returns the value exactly iff every contained entry has progress 0. -/
theorem C2_roundtrip_modulo_progress :
    (∀ s : RStr, StrWF s → RT encodeString decodeString s)
    ∧ (∀ x : Unit, RT encodeUnit decodeUnit x)
    ∧ (∀ n : Nat, n < 65536 → RT encodeU16 decodeU16 n)
    ∧ (∀ n : Nat, n < 4294967296 → RT encodeU32 decodeU32 n)
    ∧ (∀ n : Nat, n < 18446744073709551616 → RT encodeU64 decodeU64 n)
    ∧ (∀ n : Nat, n < 4294967296 → RT encodeI32 decodeI32 n)
    ∧ (∀ n : Nat, n < 4294967296 → RT encodeF32 decodeF32 n)
    ∧ (∀ b : Bool, RT encodeBool decodeBool b)
    ∧ (∀ (α β : Type) (ea : α → EncodeResult) (eb : β → EncodeResult)
        (da : Stream → DecodeResult α) (db : Stream → DecodeResult β)
        (p : α × β), RT ea da p.1 → RT eb db p.2 →
        RT (encodePair ea eb) (decodePair da db) p)
    ∧ (∀ (α : Type) (enc : α → EncodeResult) (dec : Stream → DecodeResult α)
        (o : Option α), (∀ x ∈ o, RT enc dec x) →
        RT (encodeOption enc) (decodeOption dec) o)
    ∧ (∀ (τ ε : Type) (et : τ → EncodeResult) (ee : ε → EncodeResult)
        (dt : Stream → DecodeResult τ) (de : Stream → DecodeResult ε)
        (x : Except ε τ), (∀ v, x = .ok v → RT et dt v) →
        (∀ e, x = .error e → RT ee de e) →
        RT (encodeResultC et ee) (decodeResultC dt de) x)
    ∧ (∀ (α : Type) (enc : α → EncodeResult) (dec : Stream → DecodeResult α)
        (v : List α), (∀ x ∈ v, RT enc dec x) →
        RT (encodeVec enc) (decodeVec dec) v)
    ∧ (∀ (bytes : List Nat) (n : Nat), bytes.length = n →
        RT encodeByteArray (decodeByteArray n) bytes)
    ∧ (∀ l : Language, RT encodeLanguage decodeLanguage l)
    ∧ (∀ m : MangaChapter, RT encodeMangaChapter decodeMangaChapter m)
    ∧ (∀ h : Hash, h.bytes.length = 64 → RT encodeHash decodeHash h)
    ∧ (∀ k : PublicKey, k.bytes.length = 32 →
        RT encodePublicKey decodePublicKey k)
    ∧ (∀ sg : Signature, sg.bytes.length = 64 →
        RT encodeSignature decodeSignature sg)
    ∧ (∀ m : Magnet, StrWF m.inner → RT encodeMagnet decodeMagnet m)
    ∧ (∀ a : I2PAddress, StrWF a.inner → RT encodeI2PAddress decodeI2PAddress a)
    ∧ (∀ v : AuroraProtocolVersion, RT encodeVersion decodeVersion v)
    ∧ (∀ st : AuroraStatus,
        (∀ m, st = .notFound m ∨ st = .invalidArgument m ∨
          st = .internalError m → StrWF m) → RT encodeStatus decodeStatus st)
    ∧ (∀ w : WhoRequest, StrWF w.request_address.inner →
        RT encodeWhoRequest decodeWhoRequest w)
    ∧ (∀ rq : ExchangeContentRequest, rq.count < 65536 →
        RT encodeExchangeContentRequest decodeExchangeContentRequest rq)
    ∧ (∀ rq : GetIndexesRequest,
        (∀ p ∈ rq.indexes, StrWF p.1 ∧ p.2.bytes.length = 64) →
        RT encodeGetIndexesRequest decodeGetIndexesRequest rq)
    ∧ (∀ i : Index, i.WF → RT encodeIndex decodeIndex i)
    ∧ (∀ t : TaggedIndex, (∀ i, t = .novel i → i.WF) →
        RT encodeTaggedIndex decodeTaggedIndex t)
    ∧ (∀ rp : GetIndexesResponse, (∀ t ∈ rp.indexes, ∀ i, t = .novel i → i.WF) →
        RT encodeGetIndexesResponse decodeGetIndexesResponse rp)
    ∧ (∀ e : ContentEntry, e.WF → e.progress = 0 →
        RT encodeContentEntry decodeContentEntry e)
    ∧ (∀ (s r : Stream) (e : ContentEntry),
        decodeContentEntry s = .ok (e, r) → e.progress = 0)
    ∧ (∀ c : Content, c.WF → (∀ e ∈ c.entries, e.progress = 0) →
        RT encodeContent decodeContent c)
    ∧ (∀ t : TaggedContent,
        (∀ c, t = .manga c → c.WF ∧ ∀ e ∈ c.entries, e.progress = 0) →
        RT encodeTaggedContent decodeTaggedContent t)
    ∧ (∀ rp : ExchangeContentResponse,
        (∀ t ∈ rp.contents, ∀ c, t = .manga c → c.WF ∧
          ∀ e ∈ c.entries, e.progress = 0) →
        RT encodeExchangeContentResponse decodeExchangeContentResponse rp) := by
  refine ⟨rt_string, rt_unit, rt_u16, rt_u32, rt_u64, rt_i32, rt_f32, rt_bool,
    ?_, ?_, ?_, ?_, ?_, rt_language, rt_mangaChapter, rt_hash, rt_publicKey,
    rt_signature, rt_magnet, rt_i2pAddress, rt_version, rt_status,
    rt_whoRequest, rt_exchangeContentRequest, rt_getIndexesRequest, rt_index,
    rt_taggedIndex, rt_getIndexesResponse, ?_, ?_, rt_content,
    rt_taggedContent, rt_exchangeContentResponse⟩
  · intro α β ea eb da db p ha hb
    exact rt_pair p ha hb
  · intro α enc dec o h
    exact rt_option o h
  · intro τ ε et ee dt de x ht herr
    exact rt_resultC x ht herr
  · intro α enc dec v h
    exact rt_vec v h
  · intro bytes n h
    exact rt_byteArray bytes n h
  · intro e hwf hp
    exact rt_contentEntry e hwf hp
  · intro s r e h
    exact decodeContentEntry_progress s e r h

theorem C2_roundtrip_modulo_progress_witness :
    decodeString ([0, 2, 104, 105] ++ []) = .ok (([104, 105] : RStr), []) :=
  C2_roundtrip_modulo_progress.1 [104, 105] (by decide) [0, 2, 104, 105] []
    (by decide)

/-! ### Idempotence machinery for the second exchange run (C5) -/

theorem upsertA_idem {κ ν : Type} [DecidableEq κ] (m : List (κ × ν)) (k : κ)
    (v : ν) : upsertA (upsertA m k v) k v = upsertA m k v :=
  upsertA_of_lookup_eq _ _ _ (lookupA_upsertA_self m k v)

/-- The signature of a tagged content record. -/
def sigOfTC : TaggedContent → Signature
  | .manga c => c.signature

theorem mem_getIndexesHandler_intro (repo : List (Hash × Index))
    (req : List (RStr × Hash)) (p : RStr × Hash) (i : Index) (hp : p ∈ req)
    (ht : p.1 = mangaTagStr) (hl : lookupA repo p.2 = some i) :
    TaggedIndex.novel i ∈ getIndexesHandler repo req := by
  unfold getIndexesHandler
  exact List.mem_filterMap.mpr ⟨p, hp, by rw [if_pos ht, hl]; rfl⟩

theorem commitGo_preserves (C : CryptoPrims) (ex : List Hash)
    (cs : List TaggedContent) (st : ExchangeState) (log : List Content)
    (k : Signature) (v : Content) (hl : lookupA st.contentRepo k = some v)
    (hnot : ∀ c ∈ committedOf C ex cs, c.signature ≠ k) :
    lookupA (commitGo C ex (st, log) cs).1.contentRepo k = some v := by
  induction cs generalizing st log with
  | nil => simpa [commitGo]
  | cons tc rest ih =>
    cases tc with
    | manga c0 =>
      simp only [commitGo, commitOne]
      by_cases hm : c0.index_hash ∈ ex
      · simp only [TaggedContent.index_hash, hm, not_true, if_false]
        by_cases hv : Content.verify C c0 = true
        · rw [show TaggedContent.verify C (.manga c0) = true from hv]
          simp only [Bool.true_eq_false, if_false]
          have hne : c0.signature ≠ k := by
            refine hnot c0 ?_
            rw [mem_committedOf]
            exact ⟨by simp, hm, hv⟩
          refine ih _ _ ?_ ?_
          · show lookupA (upsertA st.contentRepo c0.signature c0) k = some v
            rw [lookupA_upsertA_other _ _ _ _ (Ne.symm hne)]
            exact hl
          · intro c hc
            refine hnot c ?_
            rw [mem_committedOf] at hc ⊢
            exact ⟨by simp [hc.1], hc.2⟩
        · rw [show TaggedContent.verify C (.manga c0) = false from by
            simpa using hv]
          simp only [if_pos rfl]
          refine ih _ _ hl ?_
          intro c hc
          refine hnot c ?_
          rw [mem_committedOf] at hc ⊢
          exact ⟨by simp [hc.1], hc.2⟩
      · simp only [TaggedContent.index_hash, hm, not_false_iff, if_pos trivial]
        refine ih _ _ hl ?_
        intro c hc
        refine hnot c ?_
        rw [mem_committedOf] at hc ⊢
        exact ⟨by simp [hc.1], hc.2⟩

theorem committedOf_cons (C : CryptoPrims) (ex : List Hash) (c0 : Content)
    (rest : List TaggedContent) :
    committedOf C ex (TaggedContent.manga c0 :: rest)
      = (if c0.index_hash ∈ ex ∧ Content.verify C c0 = true then [c0] else [])
        ++ committedOf C ex rest := by
  by_cases h : c0.index_hash ∈ ex ∧ Content.verify C c0 = true
  · simp [committedOf, List.filterMap_cons, h]
  · simp [committedOf, List.filterMap_cons, h]

theorem commitGo_stored (C : CryptoPrims) (ex : List Hash)
    (cs : List TaggedContent) (st : ExchangeState) (log : List Content)
    (hnd : (cs.map sigOfTC).Nodup) (c : Content)
    (hc : c ∈ committedOf C ex cs) :
    lookupA (commitGo C ex (st, log) cs).1.contentRepo c.signature = some c := by
  induction cs generalizing st log with
  | nil => simp [committedOf] at hc
  | cons tc rest ih =>
    cases tc with
    | manga c0 =>
      simp only [List.map_cons, List.nodup_cons] at hnd
      rw [committedOf_cons] at hc
      simp only [commitGo, commitOne]
      by_cases hm : c0.index_hash ∈ ex
      · simp only [TaggedContent.index_hash, hm, not_true, if_false]
        by_cases hv : Content.verify C c0 = true
        · rw [show TaggedContent.verify C (.manga c0) = true from hv]
          simp only [Bool.true_eq_false, if_false]
          rw [if_pos ⟨hm, hv⟩] at hc
          simp only [List.singleton_append, List.mem_cons] at hc
          rcases hc with rfl | hcr
          · refine commitGo_preserves C ex rest _ _ _ _ ?_ ?_
            · exact lookupA_upsertA_self _ _ _
            · intro c2 hc2
              rw [mem_committedOf] at hc2
              intro hcontra
              refine hnd.1 ?_
              show c.signature ∈ List.map sigOfTC rest
              rw [← hcontra]
              exact List.mem_map.mpr ⟨.manga c2, hc2.1, rfl⟩
          · exact ih _ _ hnd.2 hcr
        · rw [show TaggedContent.verify C (.manga c0) = false from by
            simpa using hv]
          simp only [if_pos rfl]
          rw [if_neg (fun hx => hv hx.2)] at hc
          simp only [List.nil_append] at hc
          exact ih _ _ hnd.2 hc
      · simp only [TaggedContent.index_hash, hm, not_false_iff, if_pos trivial]
        rw [if_neg (fun hx => hm hx.1)] at hc
        simp only [List.nil_append] at hc
        exact ih _ _ hnd.2 hc

theorem commitGo_state_noop (C : CryptoPrims) (ex : List Hash)
    (cs : List TaggedContent) (st : ExchangeState) (log : List Content)
    (h : ∀ c : Content, TaggedContent.manga c ∈ cs → c.index_hash ∈ ex →
      Content.verify C c = true →
      lookupA st.contentRepo c.signature = some c) :
    (commitGo C ex (st, log) cs).1 = st := by
  induction cs generalizing log with
  | nil => rfl
  | cons tc rest ih =>
    cases tc with
    | manga c0 =>
      simp only [commitGo, commitOne]
      by_cases hm : c0.index_hash ∈ ex
      · simp only [TaggedContent.index_hash, hm, not_true, if_false]
        by_cases hv : Content.verify C c0 = true
        · rw [show TaggedContent.verify C (.manga c0) = true from hv]
          simp only [Bool.true_eq_false, if_false]
          have hup : upsertA st.contentRepo c0.signature c0 = st.contentRepo :=
            upsertA_of_lookup_eq _ _ _ (h c0 (by simp) hm hv)
          have hrec : ({ st with contentRepo := (upsertA st.contentRepo c0.signature c0) } : ExchangeState) = st := by
            rw [hup]
          rw [hrec]
          exact ih _ (fun c hc => h c (by simp [hc]))
        · rw [show TaggedContent.verify C (.manga c0) = false from by
            simpa using hv]
          simp only [if_pos rfl]
          exact ih _ (fun c hc => h c (by simp [hc]))
      · simp only [TaggedContent.index_hash, hm, not_false_iff, if_pos trivial]
        exact ih _ (fun c hc => h c (by simp [hc]))

/-- C5 amended: re-running routine_exchange against an unchanged peer adds
nothing new, under the conditions an unchanged honest peer satisfies: its
GetIndexes responses are the handler over a fixed index repository, that
repository holds a validly signed index under its own hash for every sampled
content's index hash (so run 1's backfill succeeded for every missing hash),
and the sampled records carry pairwise-distinct signatures (distinct rows of
the peer's content table).  Then the second run's missing_indexes list is
empty and the second run leaves the repositories exactly as the first run
left them — its upserts rewrite already-present identical records.  Without
the backfill-success proviso the second run re-requests every
never-validated hash and missing_indexes is nonempty (see the
counterexample). -/
theorem C5_second_run_no_new_writes
    (C : CryptoPrims) (peer : PeerModel) (host : I2PAddress)
    (peerIdx : List (Hash × Index))
    (st0 st1 st2 : ExchangeState) (tr1 tr2 : ExchangeTrace)
    (hhonest : peer.indexResponse = getIndexesHandler peerIdx)
    (hbacked : ∀ c : Content, TaggedContent.manga c ∈ peer.contents →
      ∃ i : Index, lookupA peerIdx c.index_hash = some i ∧
        Index.verify C mangaTagStr i = true ∧ i.hash = c.index_hash)
    (hdist : (peer.contents.map sigOfTC).Nodup)
    (hrun1 : routineExchange C peer host st0 = .ok (st1, tr1))
    (hrun2 : routineExchange C peer host st1 = .ok (st2, tr2)) :
    tr2.missingIndexes = [] ∧ st2 = st1 := by
  obtain ⟨who, hwho, hst1, htr1⟩ :=
    routineExchange_ok C peer host st0 st1 tr1 hrun1
  obtain ⟨who2, hwho2, hst2, htr2⟩ :=
    routineExchange_ok C peer host st1 st2 tr2 hrun2
  rw [hwho] at hwho2
  injection hwho2 with hweq
  subst hweq
  set stA : ExchangeState :=
    { st0 with userRepo := upsertA st0.userRepo who.pub_key who } with hstA
  set dd := diffStep stA peer.contents with hdd
  set ret1 := peer.indexResponse dd.2 with hret1
  set B1 := backfillStep C stA dd.1 ret1 with hB1
  have hreq1 : ∀ c : Content, TaggedContent.manga c ∈ peer.contents →
      lookupA st0.indexRepo c.index_hash = none →
      (mangaTagStr, c.index_hash) ∈ dd.2 := by
    intro c hc hl0
    rw [hdd, show (diffStep stA peer.contents).2
      = (diffGo stA ([], []) peer.contents).2 from rfl, diffGo_snd]
    simp only [List.nil_append]
    exact (mem_missingOf stA peer.contents (mangaTagStr, c.index_hash)).mpr
      ⟨rfl, c, hc, rfl, hl0⟩
  have hretmem : ∀ c : Content, TaggedContent.manga c ∈ peer.contents →
      lookupA st0.indexRepo c.index_hash = none →
      ∃ i : Index, TaggedIndex.novel i ∈ ret1 ∧
        Index.verify C mangaTagStr i = true ∧ i.hash = c.index_hash := by
    intro c hc hl0
    obtain ⟨i, hpl, hpv, hph⟩ := hbacked c hc
    refine ⟨i, ?_, hpv, hph⟩
    rw [hret1, hhonest]
    exact mem_getIndexesHandler_intro peerIdx dd.2 (mangaTagStr, c.index_hash)
      i (hreq1 c hc hl0) rfl hpl
  have hsome1 : ∀ c : Content, TaggedContent.manga c ∈ peer.contents →
      (lookupA st1.indexRepo c.index_hash).isSome := by
    intro c hc
    have hidx : st1.indexRepo = B1.1.indexRepo := by
      rw [hst1]
      exact commitGo_indexRepo _ _ _ _
    rw [hidx, hB1, show backfillStep C stA dd.1 ret1
      = backfillGo C (stA, dd.1, []) ret1 from rfl]
    rw [backfillGo_indexRepo_isSome]
    cases hl0 : lookupA st0.indexRepo c.index_hash with
    | some i => exact Or.inl rfl
    | none => exact Or.inr (hretmem c hc hl0)
  have hexC1 : ∀ c : Content, TaggedContent.manga c ∈ peer.contents →
      c.index_hash ∈ B1.2.1 := by
    intro c hc
    rw [hB1, show backfillStep C stA dd.1 ret1
      = backfillGo C (stA, dd.1, []) ret1 from rfl]
    rw [backfillGo_existing_mem]
    cases hl0 : lookupA st0.indexRepo c.index_hash with
    | some i =>
      refine Or.inl ?_
      rw [hdd, show (diffStep stA peer.contents).1
        = (diffGo stA ([], []) peer.contents).1 from rfl, diffGo_fst_mem]
      refine Or.inr ⟨c, hc, rfl, ?_⟩
      show (lookupA st0.indexRepo c.index_hash).isSome
      rw [hl0]
      rfl
    | none => exact Or.inr (hretmem c hc hl0)
  have hstored : ∀ c : Content, TaggedContent.manga c ∈ peer.contents →
      Content.verify C c = true →
      lookupA st1.contentRepo c.signature = some c := by
    intro c hc hv
    have hcm : c ∈ committedOf C B1.2.1 peer.contents :=
      (mem_committedOf _ _ _ _).mpr ⟨hc, hexC1 c hc, hv⟩
    rw [hst1]
    exact commitGo_stored C B1.2.1 peer.contents B1.1 [] hdist c hcm
  have hu1 : st1.userRepo = upsertA st0.userRepo who.pub_key who := by
    rw [hst1]
    have h1 : (commitStep C B1.1 B1.2.1 peer.contents).1.userRepo
        = B1.1.userRepo := commitGo_userRepo _ _ _ _
    have h2 : B1.1.userRepo = stA.userRepo := by
      rw [hB1]
      exact backfillGo_userRepo _ _ _
    rw [h1, h2, hstA]
  have hstB : ({ st1 with
      userRepo := upsertA st1.userRepo who.pub_key who } : ExchangeState)
      = st1 := by
    rw [hu1, upsertA_idem, ← hu1]
  rw [hstB] at hst2 htr2
  have hm2 : (diffStep st1 peer.contents).2 = [] := by
    rw [show (diffStep st1 peer.contents).2
      = (diffGo st1 ([], []) peer.contents).2 from rfl, diffGo_snd]
    simp only [List.nil_append]
    exact (missingOf_eq_nil st1 peer.contents).mpr hsome1
  have hgoal1 : tr2.missingIndexes = [] := by
    rw [htr2]
    exact hm2
  have hret2 : peer.indexResponse (diffStep st1 peer.contents).2 = [] := by
    rw [hm2, hhonest]
    rfl
  have hst2r : st2 = (commitGo C (diffStep st1 peer.contents).1
      (st1, []) peer.contents).1 := by
    rw [hret2] at hst2
    exact hst2
  have hgoal2 : st2 = st1 := by
    rw [hst2r]
    exact commitGo_state_noop C _ peer.contents st1 []
      (fun c hc _ hv => hstored c hc hv)
  exact ⟨hgoal1, hgoal2⟩

/-- An honest peer-side index repository backing `contentW`: it stores the
validly signed `idxValidW` under its own hash `hW`. -/
def honestIdxW : List (Hash × Index) := [(hW, idxValidW)]

/-- An honest, unchanged peer: its GetIndexes responses come from the
handler over `honestIdxW`, where its one sampled content is backed. -/
def peerHonestW : PeerModel :=
  ⟨whoW, [.manga contentW], getIndexesHandler honestIdxW⟩

/-- The state after the first run against `peerHonestW` from empty
repositories: index, content and peer user all persisted. -/
def stHonestW : ExchangeState :=
  ⟨[(hW, idxValidW)], [(contentW.signature, contentW)], [(pkW, userW)]⟩

/-- The first run's trace against `peerHonestW`: the missing index was
requested, returned, validated and persisted, then the content committed. -/
def trHonest1W : ExchangeTrace :=
  ⟨[(mangaTagStr, hW)], [], [hW], [idxValidW], [contentW]⟩

/-- The second run's trace: nothing is missing; the already-stored record is
re-upserted in place. -/
def trHonest2W : ExchangeTrace :=
  ⟨[], [hW], [hW], [], [contentW]⟩

theorem C5_second_run_no_new_writes_witness :
    routineExchange cryptoW peerHonestW hostW emptyStateW
      = .ok (stHonestW, trHonest1W)
    ∧ routineExchange cryptoW peerHonestW hostW stHonestW
      = .ok (stHonestW, trHonest2W)
    ∧ trHonest2W.missingIndexes = [] ∧ stHonestW = stHonestW :=
  ⟨by decide, by decide,
    C5_second_run_no_new_writes cryptoW peerHonestW hostW honestIdxW
      emptyStateW stHonestW stHonestW trHonest1W trHonest2W
      rfl
      (fun c hc => by
        have hm : TaggedContent.manga c = TaggedContent.manga contentW := by
          simpa [peerHonestW] using hc
        have hc0 : c = contentW := by injection hm
        subst hc0
        exact ⟨idxValidW, by decide, by decide, by decide⟩)
      (by decide)
      (by decide)
      (by decide)⟩

end Akareko
